import Mathlib

/-!
Verification of the `cycle-lazy-load` library (infinite-scroll lazy loading
for Cycle.js).  The library is a network of `xstream` stream combinators; we
embed it as an explicit event-trace machine.  Events are processed strictly in
order (the source is single-threaded and synchronous, see spec section 5);
timer-based shaping (`debounce`, `throttle`) is at its default `0` in every
claim, where it is the identity on streams, so the embedding works with plain
event lists ordered by time.  JS numbers are modelled as integers: every
number the engine computes with in the claims (pixel deltas, item quantities,
settings) is integral; sort keys are opaque payloads, modelled as integer
tuples.

The one non-obvious combinator is `xstream-combine-unique`, used in
`getLoadInstruction`: it combines the latest values of its two inputs but
emits only when, since the previous emission, *both* inputs have emitted a
value (each input value is consumed by at most one output).  This semantics is
forced by the repository's own tests: in `chained.test.ts`, after the
instruction `(22, [])` is capped to 10, the refreshed surplus `12` with the
unchanged cursor `[]` produces no second instruction, which rules out a
compare-with-previous-pair semantics, and the later instruction
`(12, [650])` fires on a cursor arrival alone with a stale surplus value,
which rules out a zip semantics.  The feedback loop (`imitate`) that
subtracts each emitted quantity from the surplus is synchronous, so each
external event yields at most one emitted instruction: the emission consumes
both freshness marks and the feedback can only refresh the surplus mark.
-/

namespace CycleLazyLoad

/-- A JavaScript value as it appears in a settings field of the chained
engine: `undefined`, a non-numeric value (which `isNaN` flags), or a number. -/
inductive JSVal where
  | undefined : JSVal
  | nan : JSVal
  | num : ℤ → JSVal
deriving DecidableEq

/-- Settings value consumed by `getChainedLoadInstruction` (`Settings` in
`chained.ts`): `contentHeight` is required, `minQuantity` / `maxQuantity`
optional; the `buffer` field is forwarded to the inner raw engine.  `debounce`
and `throttle` are omitted: at their default `0` (used by every claim) they do
not affect the event order. -/
structure Settings where
  contentHeight : JSVal
  buffer : Option ℤ
  minQuantity : JSVal
  maxQuantity : JSVal
deriving DecidableEq

/-- The eight terminal configuration errors of spec section 7, one per check
of `settingsAreValid` in `chained.ts`. -/
inductive SettingsError where
  | missingContentHeight
  | invalidContentHeight
  | nonPositiveContentHeight
  | invalidMinQuantity
  | negativeMinQuantity
  | invalidMaxQuantity
  | maxQuantityBelowOne
  | minExceedsMax
deriving DecidableEq

/-- `isContentHeightValid` from `chained.ts`: throws on `undefined`, then on
a non-number, then on a non-positive number. -/
def isContentHeightValid : JSVal → Except SettingsError Unit
  | .undefined => .error .missingContentHeight
  | .nan => .error .invalidContentHeight
  | .num c => if c ≤ 0 then .error .nonPositiveContentHeight else .ok ()

/-- `isMinQuantityValid` from `chained.ts`: `undefined` is accepted, then a
non-number throws, then a negative number throws. -/
def isMinQuantityValid : JSVal → Except SettingsError Unit
  | .undefined => .ok ()
  | .nan => .error .invalidMinQuantity
  | .num m => if m < 0 then .error .negativeMinQuantity else .ok ()

/-- `isMaxQuantityValid` from `chained.ts`: `undefined` is accepted, then a
non-number throws, then a number below one throws. -/
def isMaxQuantityValid : JSVal → Except SettingsError Unit
  | .undefined => .ok ()
  | .nan => .error .invalidMaxQuantity
  | .num m => if m < 1 then .error .maxQuantityBelowOne else .ok ()

/-- `areMinAndMaxCompatible` from `chained.ts`: only applies when both are
numbers (it runs after the individual checks succeeded, so a defined value is
numeric there); throws when the minimum exceeds the maximum. -/
def areMinAndMaxCompatible : JSVal → JSVal → Except SettingsError Unit
  | .num m, .num M => if M < m then .error .minExceedsMax else .ok ()
  | _, _ => .ok ()

/-- `settingsAreValid` from `chained.ts`: the conjunction of the four checks,
evaluated left to right with the first thrown error escaping. -/
def settingsAreValid (s : Settings) : Except SettingsError Unit := do
  isContentHeightValid s.contentHeight
  isMinQuantityValid s.minQuantity
  isMaxQuantityValid s.maxQuantity
  areMinAndMaxCompatible s.minQuantity s.maxQuantity

/-- `spotInvalidSettings` from `chained.ts`: the error raised by a settings
value, if any.  In the source the error is thrown while filtering and turned
into a terminal `Stream.throw`. -/
def spotInvalidSettings (s : Settings) : Option SettingsError :=
  match settingsAreValid s with
  | .ok _ => none
  | .error e => some e

/-- Extraction of an optional numeric settings field for use by the engine
(`extractMinQuantity` / `extractMaxQuantity` keep the optional field as is;
the machine only reads it from validated settings, where a defined field is
numeric). -/
def jsToOpt : JSVal → Option ℤ
  | .num q => some q
  | _ => none

/-- A pagination instruction `ChainedLoadInstruction` from `chained.ts`:
a quantity and the `after` cursor (a sort-key tuple, modelled as a list of
integers). -/
structure ChainedLoadInstruction where
  quantity : ℤ
  after : List ℤ
deriving DecidableEq

/-- One input event of the chained engine, in timestamp order: a sized raw
load instruction (already converted by the inner raw engine; `add q` carries
its quantity), a content batch (the list of the items' sort keys), or a
settings value. -/
inductive ChainedEvent where
  | add : ℤ → ChainedEvent
  | content : List (List ℤ) → ChainedEvent
  | settings : Settings → ChainedEvent
deriving DecidableEq

/-- `getAfter`'s per-batch key extraction from `chained.ts`: batches with no
content are dropped (`hasContent`), then the last item's `sort` is taken
(`getLastContentSortAttribute`), then empty sort tuples are dropped
(`isValidSortAttribute`). -/
def getAfter (batch : List (List ℤ)) : Option (List ℤ) :=
  match batch.getLast? with
  | none => none
  | some k => if k = [] then none else some k

/-- `quantityIsPositive` from `chained.ts`. -/
def quantityIsPositive (q : ℤ) : Bool := 0 < q

/-- The min-quantity gate (`filterStreamWithMinQuantity` in `chained.ts`):
with a configured `minQuantity` only surpluses reaching it pass, otherwise
everything passes. -/
def applyMinQuantity (minQ : Option ℤ) (q : ℤ) : Bool :=
  match minQ with
  | some m => m ≤ q
  | none => true

/-- The ceiling (`capWithQuantity` composed through `capStreamWithMaxQuantity`
in `chained.ts`): with a configured `maxQuantity` the emitted quantity is
`Math.min` of the surplus and the ceiling, otherwise the surplus itself. -/
def applyMaxQuantity (maxQ : Option ℤ) (q : ℤ) : ℤ :=
  match maxQ with
  | some m => min q m
  | none => q

/-- The internal state of the chained engine.

* `surplus` is the accumulator of `computeRemainingQuantityToLoad`'s `fold`.
* `latestRem` / `freshRem` are the `combineUnique` slot fed by the
  min-quantity-filtered surplus stream: the latest value that passed the
  `quantityIsPositive` and min-quantity filters and whether it has not yet
  been consumed by an emission.
* `latestAfter` / `freshAfter` are the `combineUnique` slot fed by `getAfter`;
  `after$` starts with `[]`, so the initial state holds a fresh `[]`.
* `minQ` / `maxQ` are the currently applied settings (the `flatten`ed
  min-quantity filter and max-quantity cap).
* `started` records whether a first valid settings value has arrived: before
  it, the `flatten`ed min/max streams have no inner stream, so surplus values
  cannot reach `combineUnique` and nothing can be emitted.
* `dead` is the terminal validation error, if one was raised: the output
  stream has ended and later events are not observed. -/
structure ChainedState where
  surplus : ℤ
  latestRem : ℤ
  freshRem : Bool
  latestAfter : List ℤ
  freshAfter : Bool
  minQ : Option ℤ
  maxQ : Option ℤ
  started : Bool
  dead : Option SettingsError
deriving DecidableEq

/-- Initial state: surplus 0, no surplus value seen, the cursor slot holds the
`startWith` value `[]` (fresh), no settings yet. -/
def initialChainedState : ChainedState :=
  { surplus := 0, latestRem := 0, freshRem := false,
    latestAfter := [], freshAfter := true,
    minQ := none, maxQ := none, started := false, dead := none }

/-- The surplus stream event reaching `combineUnique`: the fold emits the new
accumulator value, `quantityIsPositive` filters it, the min-quantity gate
filters it (only once a settings value installed an inner stream).  A value
that passes refreshes the surplus slot; a filtered value leaves the slot
untouched. -/
def pushRemaining (st : ChainedState) : ChainedState :=
  if st.started ∧ quantityIsPositive st.surplus ∧ applyMinQuantity st.minQ st.surplus then
    { st with latestRem := st.surplus, freshRem := true }
  else
    st

/-- The `combineUnique` emission step plus the synchronous feedback loop
(`imitate` / `getQuantityToRemove`): when both slots are fresh an instruction
is emitted with the capped quantity, both slots are consumed, and the emitted
quantity is immediately subtracted from the surplus, whose new value is
offered back to the surplus slot.  The feedback cannot cascade into a second
emission because the cursor slot was just consumed. -/
def tryEmit (st : ChainedState) : ChainedState × Option ChainedLoadInstruction :=
  if st.freshRem ∧ st.freshAfter then
    let q := applyMaxQuantity st.maxQ st.latestRem
    let st1 : ChainedState :=
      { st with freshRem := false, freshAfter := false, surplus := st.surplus - q }
    (pushRemaining st1, some { quantity := q, after := st.latestAfter })
  else
    (st, none)

/-- One step of the chained engine on one input event.  Returns the new state,
the emitted instruction (if any) and the raised terminal error (if any).
After a terminal error the stream has ended and events are ignored. -/
def chainedStep (st : ChainedState) (e : ChainedEvent) :
    ChainedState × Option ChainedLoadInstruction × Option SettingsError :=
  if st.dead.isSome then (st, none, none)
  else
    match e with
    | .add q =>
        if quantityIsPositive q then
          let p := tryEmit (pushRemaining { st with surplus := st.surplus + q })
          (p.1, p.2, none)
        else (st, none, none)
    | .content batch =>
        match getAfter batch with
        | some k =>
            let p := tryEmit { st with latestAfter := k, freshAfter := true }
            (p.1, p.2, none)
        | none => (st, none, none)
    | .settings s =>
        match spotInvalidSettings s with
        | some err => ({ st with dead := some err }, none, some err)
        | none =>
            ({ st with minQ := jsToOpt s.minQuantity, maxQ := jsToOpt s.maxQuantity,
                       started := true }, none, none)

/-- State transition of one step. -/
def stepState (st : ChainedState) (e : ChainedEvent) : ChainedState :=
  (chainedStep st e).1

/-- State after processing a list of events from a given state. -/
def statesFold (st : ChainedState) (tr : List ChainedEvent) : ChainedState :=
  tr.foldl stepState st

/-- State after processing a trace from the initial state. -/
def stateAfter (tr : List ChainedEvent) : ChainedState :=
  statesFold initialChainedState tr

/-- Instructions emitted while processing a list of events from a state. -/
def chainedOutputs (st : ChainedState) : List ChainedEvent → List ChainedLoadInstruction
  | [] => []
  | e :: rest => ((chainedStep st e).2.1).toList ++ chainedOutputs (stepState st e) rest

/-- `getChainedLoadInstruction` at the trace level: the list of emitted
instructions and the terminal validation error, if one was raised (the
output stream is the merge of the instruction stream and
`spotInvalidSettings`; an error ends it). -/
def getChainedLoadInstruction (tr : List ChainedEvent) :
    List ChainedLoadInstruction × Option SettingsError :=
  (chainedOutputs initialChainedState tr, (stateAfter tr).dead)

/-- The instruction emitted at position `i` of a trace, if any. -/
def emitAt (tr : List ChainedEvent) (i : ℕ) : Option ChainedLoadInstruction :=
  match tr.get? i with
  | some e => (chainedStep (stateAfter (tr.take i)) e).2.1
  | none => none

namespace Raw

/-- Integer ceiling division, modelling `Math.ceil(a / b)` for a positive
divisor (spec: px to item-count conversion is ceiling division).  For `0 < b`
this equals the mathematical ceiling of `a / b`, see `ceilDiv_eq_ceil`. -/
def ceilDiv (a b : ℤ) : ℤ := (a - 1) / b + 1

/-- `RawLoadInstruction` from `raw.ts`: an optional quantity; an instruction
without quantity only signals that a fetch is warranted. -/
structure RawLoadInstruction where
  quantity : Option ℤ
deriving DecidableEq

/-- A partial settings update (`RawSettings` in `raw.ts`): each field may be
absent. -/
structure RawSettingsUpdate where
  contentHeight : Option ℤ
  buffer : Option ℤ
  debounce : Option ℤ
  throttle : Option ℤ
deriving DecidableEq

/-- A merged-and-sanitized settings value, with every field numeric. -/
structure MergedRawSettings where
  contentHeight : ℤ
  buffer : ℤ
  debounce : ℤ
  throttle : ℤ
deriving DecidableEq

/-- `DEFAULT_SETTINGS` from `raw.ts`. -/
def DEFAULT_SETTINGS : MergedRawSettings :=
  { contentHeight := 0, buffer := 0, debounce := 0, throttle := 0 }

/-- `mergeAndValidateSingleOption` from `raw.ts`: the JS expression
`Math.max(0, settings[optionName]) || defaults[optionName]` with the default
`0`, i.e. an absent, non-positive or non-numeric value falls back to `0` and
a positive value is kept. -/
def mergeAndValidateSingleOption : Option ℤ → ℤ
  | some v => if 0 < v then v else 0
  | none => 0

/-- `mergeAndValidateSettings` from `raw.ts`, applied field by field. -/
def mergeAndValidateSettings (s : RawSettingsUpdate) : MergedRawSettings :=
  { contentHeight := mergeAndValidateSingleOption s.contentHeight,
    buffer := mergeAndValidateSingleOption s.buffer,
    debounce := mergeAndValidateSingleOption s.debounce,
    throttle := mergeAndValidateSingleOption s.throttle }

/-- `accumulateSettings` from `raw.ts`: JS object spread, fields of the
current update override the accumulator when present. -/
def accumulateSettings (acc cur : RawSettingsUpdate) : RawSettingsUpdate :=
  { contentHeight := cur.contentHeight.orElse fun _ => acc.contentHeight,
    buffer := cur.buffer.orElse fun _ => acc.buffer,
    debounce := cur.debounce.orElse fun _ => acc.debounce,
    throttle := cur.throttle.orElse fun _ => acc.throttle }

/-- All partial states of the settings fold (`fold(accumulateSettings, {})`
followed by `drop(1)`: the seed itself is not a value of the stream). -/
def scanAccum (acc : RawSettingsUpdate) : List RawSettingsUpdate → List RawSettingsUpdate
  | [] => []
  | u :: rest =>
      let acc' := accumulateSettings acc u
      acc' :: scanAccum acc' rest

/-- The empty settings update (the seed `{}` of the fold). -/
def emptyUpdate : RawSettingsUpdate :=
  { contentHeight := none, buffer := none, debounce := none, throttle := none }

/-- `makeValidSettings` from `raw.ts` at the trace level: the sequence of
valid settings values.  With a settings source the accumulated updates are
merged over defaults, and `startWith` prepends the defaults; without one the
sequence is just the defaults. -/
def makeValidSettings : Option (List RawSettingsUpdate) → List MergedRawSettings
  | some us => DEFAULT_SETTINGS :: (scanAccum emptyUpdate us).map mergeAndValidateSettings
  | none => [DEFAULT_SETTINGS]

/-- The buffer-path validity filter (`settingsAreValid` in `raw.ts`): both
`contentHeight` and `buffer` must be positive. -/
def bufferSettingsAreValid (s : MergedRawSettings) : Bool :=
  0 < s.contentHeight ∧ 0 < s.buffer

/-- `extractBuffer` from `raw.ts`. -/
def extractBuffer (s : MergedRawSettings) : ℤ := s.buffer

/-- `pairwise` from `xstream/extra`: consecutive pairs of a sequence. -/
def pairwise (l : List ℤ) : List (ℤ × ℤ) := l.zip l.tail

/-- `computeDelta` from `raw.ts`: `Math.max(0, second - first)`. -/
def computeDelta (p : ℤ × ℤ) : ℤ := max 0 (p.2 - p.1)

/-- `bufferIsGreater` from `raw.ts`. -/
def bufferIsGreater (d : ℤ) : Bool := 0 < d

/-- `getBufferDelta` from `raw.ts` at the trace level: the valid settings
values are filtered by `bufferSettingsAreValid`, their buffers are extracted,
`startWith(0)` prepends `0`, consecutive values are diffed, and only strictly
positive increases pass.  The source delays this stream by one tick
(`timeSource.delay(20)`), which only affects ordering against other streams,
not the emitted values. -/
def getBufferDelta (valid : List MergedRawSettings) : List ℤ :=
  let buffers := 0 :: (valid.filter bufferSettingsAreValid).map extractBuffer
  ((pairwise buffers).map computeDelta).filter bufferIsGreater

/-- `applySettingToValue` from `raw.ts`: with a positive `contentHeight` the
delta is converted to a quantity by ceiling division, otherwise the
instruction carries no quantity. -/
def applySettingToValue (contentHeight : ℤ) (deltaY : ℤ) : RawLoadInstruction :=
  if 0 < contentHeight then { quantity := some (ceilDiv deltaY contentHeight) }
  else { quantity := none }

/-- The buffer-driven instruction stream
(`computeLoadInstruction(bufferDelta$, contentHeightSetting$.drop(1))` in
`raw.ts`).  The `drop(1)` skips the prepended default settings; if no further
settings value ever arrives the `flatten` has no inner stream and every delta
is dropped.  The buffer deltas are delayed by a tick, so (in the
single-settings-value traces of the claims) the last `contentHeight` governs
the conversion. -/
def bufferLoadInstructions (updates : Option (List RawSettingsUpdate)) :
    List RawLoadInstruction :=
  let valid := makeValidSettings updates
  match ((valid.map MergedRawSettings.contentHeight).drop 1).getLast? with
  | none => []
  | some ch => (getBufferDelta valid).map (applySettingToValue ch)

/-- A motion event (wheel or resize): the three optional delta fields. -/
structure MotionEvent where
  deltaX : Option ℤ
  deltaY : Option ℤ
  deltaZ : Option ℤ
deriving DecidableEq

/-- `isScrollingDownOrResizingToTallerWindow` from `raw.ts`: only an event
with `deltaY > 0` qualifies (`undefined > 0` is false in JS, so an event
without `deltaY` is filtered out). -/
def isScrollingDownOrResizingToTallerWindow (e : MotionEvent) : Bool :=
  match e.deltaY with
  | some d => 0 < d
  | none => false

/-- `makeDelta` from `raw.ts`. -/
def makeDelta (e : MotionEvent) : ℤ := e.deltaY.getD 0

/-- `makeValidScrollOrResize` from `raw.ts`: the merge of the two motion
sources, a missing source standing in for `Stream.never()`.  The merge of
time-ordered lists is modelled by concatenation (the claims using it have at
most one non-empty source). -/
def makeValidScrollOrResize (scroll resize : Option (List MotionEvent)) :
    List MotionEvent :=
  scroll.getD [] ++ resize.getD []

/-- `getRawLoadInstruction` from `raw.ts` at the trace level, for traces in
which all settings updates precede the motion events (as in every claim) and
`debounce` / `throttle` are at their default `0`, where
`debounceAndThrottleAsPerSettings` is the identity: qualifying motion deltas
are converted with the current (last) `contentHeight`, and the buffer-driven
instructions are merged in. -/
def getRawLoadInstruction (scroll resize : Option (List MotionEvent))
    (updates : Option (List RawSettingsUpdate)) : List RawLoadInstruction :=
  let valid := makeValidSettings updates
  let ch := ((valid.map MergedRawSettings.contentHeight).getLast?).getD 0
  let deltas :=
    ((makeValidScrollOrResize scroll resize).filter
      isScrollingDownOrResizingToTallerWindow).map makeDelta
  deltas.map (applySettingToValue ch) ++ bufferLoadInstructions updates

end Raw

/-- The raw-settings update carried by a chained settings value: the chained
engine forwards its settings stream to the inner raw engine
(`getRawLoadInstruction(events, settings$)` in `chained.ts`). -/
def rawUpdateOfSettings (s : Settings) : Raw.RawSettingsUpdate :=
  { contentHeight := jsToOpt s.contentHeight, buffer := s.buffer,
    debounce := none, throttle := none }

/-- A raw instruction as an input event of the chained engine
(`getQuantityToAdd` extracts the quantity and filters the positive ones; an
absent quantity, mapped to `0` here, is filtered out just like in JS, where
`undefined > 0` is false). -/
def instrToEvent (r : Raw.RawLoadInstruction) : ChainedEvent :=
  .add (r.quantity.getD 0)

/-- The chained engine driven by nothing but its own settings value: no
motion events, no content, only the buffer-driven instructions of the inner
raw engine (delivered after the settings value, due to the one-tick delay
on the buffer path). -/
def chainedWithBufferOnly (s : Settings) :
    List ChainedLoadInstruction × Option SettingsError :=
  getChainedLoadInstruction
    (.settings s ::
      (Raw.bufferLoadInstructions (some [rawUpdateOfSettings s])).map instrToEvent)

/-! ### Specification-side definitions

The following definitions are written from the specification's wording, to be
compared with the source-side definitions above. -/

/-- Valid settings with contentHeight 1 and the given floor and ceiling. -/
def mkSettings (minQ maxQ : Option ℤ) : Settings :=
  { contentHeight := .num 1, buffer := none,
    minQuantity := match minQ with | some m => .num m | none => .undefined,
    maxQuantity := match maxQ with | some m => .num m | none => .undefined }

/-- Whether a JS value is a number. -/
def jsIsNumeric : JSVal → Bool
  | .num _ => true
  | _ => false

/-- Modelled from the spec: the eight validation checks in the fixed order the
specification states (contentHeight missing, contentHeight not numeric,
contentHeight non-positive, minQuantity present and not numeric, minQuantity
negative, maxQuantity present and not numeric, maxQuantity below one, minimum
above maximum), each paired with its distinct error. -/
def validationChecks : List ((Settings → Bool) × SettingsError) :=
  [ (fun s => decide (s.contentHeight = JSVal.undefined), .missingContentHeight),
    (fun s => !jsIsNumeric s.contentHeight, .invalidContentHeight),
    (fun s => match s.contentHeight with | .num c => decide (c ≤ 0) | _ => false,
      .nonPositiveContentHeight),
    (fun s => decide (s.minQuantity ≠ JSVal.undefined) && !jsIsNumeric s.minQuantity,
      .invalidMinQuantity),
    (fun s => match s.minQuantity with | .num m => decide (m < 0) | _ => false,
      .negativeMinQuantity),
    (fun s => decide (s.maxQuantity ≠ JSVal.undefined) && !jsIsNumeric s.maxQuantity,
      .invalidMaxQuantity),
    (fun s => match s.maxQuantity with | .num m => decide (m < 1) | _ => false,
      .maxQuantityBelowOne),
    (fun s => match s.minQuantity, s.maxQuantity with
              | .num m, .num M => decide (M < m)
              | _, _ => false, .minExceedsMax) ]

/-- Modelled from the spec: the error of the first failing check, in the
fixed order of `validationChecks`. -/
def firstFailing (s : Settings) : Option SettingsError :=
  validationChecks.findSome? fun c => if c.1 s then some c.2 else none

/-- The qualifying cursor key carried by an event: for a content event, the
last item's sort key when the batch is non-empty and that key is non-empty. -/
def qualKeyOf : ChainedEvent → Option (List ℤ)
  | .content b => getAfter b
  | _ => none

/-- The cursor after a trace, as the code maintains it: the key of the most
recent qualifying content batch, or `[]` initially. -/
def specCursor (tr : List ChainedEvent) : List ℤ :=
  tr.foldl (fun c e => (qualKeyOf e).getD c) []

/-- Modelled from the spec (claim C6 wording): the last item's sort key of
the most recent non-empty content batch — with no condition on the key
itself — or `[]` initially. -/
def claimCursor (tr : List ChainedEvent) : List ℤ :=
  tr.foldl
    (fun c e =>
      match e with
      | .content b => match b.getLast? with | some k => k | none => c
      | _ => c) []

/-- Whether an event is not a settings event. -/
def notSettings : ChainedEvent → Bool
  | .settings _ => false
  | _ => true

/-- The quantity an event adds to the surplus: the quantity of a qualifying
(positive) raw instruction, otherwise nothing. -/
def addQty : ChainedEvent → ℤ
  | .add q => if quantityIsPositive q then q else 0
  | _ => 0

/-- The pending surplus against which the instruction emitted at position `i`
is computed: the surplus accumulated before the event plus the quantity the
event itself adds. -/
def pendingSurplus (tr : List ChainedEvent) (i : ℕ) : ℤ :=
  (stateAfter (tr.take i)).surplus + (match tr.get? i with
    | some e => addQty e
    | none => 0)

/-- Sum of the emitted quantities of a list of instructions. -/
def sumQ (outs : List ChainedLoadInstruction) : ℤ :=
  (outs.map ChainedLoadInstruction.quantity).sum

/-- The quantity of an optional instruction, zero when absent. -/
def outQty : Option ChainedLoadInstruction → ℤ
  | some i => i.quantity
  | none => 0

/-- Sum of the quantities a list of events adds to the surplus. -/
def sumAdds (tr : List ChainedEvent) : ℤ :=
  (tr.map addQty).sum

/-- The ceiling-conservation scenario of spec section 8: one accumulated
surplus `S`, then `n` fetch completions, under a ceiling `M` (contentHeight 1,
no floor). -/
def drainTrace (S M : ℤ) (n : ℕ) : List ChainedEvent :=
  .settings (mkSettings none (some M)) :: .add S ::
    List.replicate n (.content [[1]])

/-- Invariant of the chained engine after a valid settings value `(m, M)` has
arrived and no further settings event occurred: the engine is running, the
installed floor and ceiling are `m` and `M`, the surplus is non-negative, and
a fresh surplus slot holds exactly the current surplus (which passed the
positivity and floor filters). -/
def FixedInv (m M : Option ℤ) (st : ChainedState) : Prop :=
  st.dead = none ∧ st.started = true ∧ st.minQ = m ∧ st.maxQ = M ∧
  0 ≤ st.surplus ∧
  (st.freshRem = true →
    st.latestRem = st.surplus ∧ 0 < st.latestRem ∧
      applyMinQuantity m st.latestRem = true)

/-- The engine state right after the drain scenario's settings value: ceiling
`M`, no floor, nothing accumulated. -/
def drainState1 (M : ℤ) : ChainedState :=
  { surplus := 0, latestRem := 0, freshRem := false, latestAfter := [],
    freshAfter := true, minQ := none, maxQ := some M, started := true,
    dead := none }

/-- The engine state right after the drain scenario's single raw quantity
`S > M` arrived and the first chunk `M` was emitted against the initial
cursor: the remainder is re-offered to the surplus slot. -/
def drainState2 (S M : ℤ) : ChainedState :=
  { surplus := S - M, latestRem := S - M, freshRem := true, latestAfter := [],
    freshAfter := false, minQ := none, maxQ := some M, started := true,
    dead := none }

/-- Invariant of the drain scenario: no floor, ceiling `M`, cursor slot
consumed, and the surplus slot fresh exactly when the surplus is positive (in
which case it holds the surplus). -/
def DrainInv (M : ℤ) (st : ChainedState) : Prop :=
  st.dead = none ∧ st.started = true ∧ st.minQ = none ∧ st.maxQ = some M ∧
  0 ≤ st.surplus ∧ st.freshRem = decide (0 < st.surplus) ∧
  (st.freshRem = true → st.latestRem = st.surplus)

/-! ### Concrete traces used by counterexamples and witnesses -/

/-- The claim C1 trace as literally stated: six raw deltas of 15 with the two
fetch completions at positions 6 and 8 of the event sequence, under floor 20
and ceiling 50. -/
def sixDeltaTrace : List ChainedEvent :=
  [ .settings (mkSettings (some 20) (some 50)),
    .add 15, .add 15, .add 15, .add 15, .add 15,
    .content [[1]], .add 15, .content [[2]] ]

/-- The worked example of spec section 4.3 (and the README): seven raw deltas
of 15, the two fetch completions arriving after the first six. -/
def workedExampleTrace : List ChainedEvent :=
  [ .settings (mkSettings (some 20) (some 50)),
    .add 15, .add 15, .add 15, .add 15, .add 15, .add 15,
    .content [[1]], .content [[2]], .add 15 ]

/-- Counterexample trace for claim C2: two raw quantities with no settings
floor or ceiling and no content batch in between. -/
def twoAddsTrace : List ChainedEvent :=
  [ .settings (mkSettings none none), .add 5, .add 3 ]

/-- Counterexample trace for claim C3: the same batch key `[1]` arrives
twice, letting the engine emit the same instruction twice in a row. -/
def repeatedKeyTrace : List ChainedEvent :=
  [ .settings (mkSettings none none),
    .add 5, .content [[1]], .add 5, .content [[1]], .add 5 ]

/-- Counterexample trace for claim C6: a batch whose last item's sort key is
the empty tuple arrives after a batch with key `[1]`; the cursor keeps the
key `[1]`. -/
def emptyKeyTrace : List ChainedEvent :=
  [ .settings (mkSettings none none),
    .content [[1]], .content [([] : List ℤ)], .add 5 ]

/-- Witness trace for the amended claim C3: distinct batch keys. -/
def distinctKeyTrace : List ChainedEvent :=
  [ .settings (mkSettings none none),
    .add 5, .content [[1]], .add 5, .content [[2]], .add 5 ]

/-- A single raw settings update with contentHeight 25 and buffer 50
(the buffer test of `raw.test.ts`). -/
def singleBufferUpdate : Raw.RawSettingsUpdate :=
  { contentHeight := some 25, buffer := some 50, debounce := none,
    throttle := none }

/-- First-update shape for the buffer path: one update carrying the given
contentHeight and buffer. -/
def firstUpdate (ch b : Option ℤ) : Raw.RawSettingsUpdate :=
  { contentHeight := ch, buffer := b, debounce := none, throttle := none }

/-- A settings value whose contentHeight is missing and whose minQuantity is
negative: both invalid at once. -/
def cBadSettings : Settings :=
  { contentHeight := .undefined, buffer := none, minQuantity := .num (-1),
    maxQuantity := .undefined }

/-- Scenario D settings: contentHeight 50 and buffer 1000, no floor or
ceiling. -/
def scenarioDSettings : Settings :=
  { contentHeight := .num 50, buffer := some 1000, minQuantity := .undefined,
    maxQuantity := .undefined }

/-! ### Sanity checks

The embedding reproduces the repository's test suite, in particular the tests
that pin down the consume-on-emission semantics of `combineUnique`. -/

/-- Reproduction of the maxQuantity test of `chained.test.ts`: a surplus of
22 under ceiling 10 drains in chunks 10, 10, 2, one per cursor arrival; in
particular the refreshed surplus 12 right after the first emission does not
emit against the unchanged cursor. -/
theorem test_max_quantity_batches :
    getChainedLoadInstruction
      [ .settings { contentHeight := .num 50, buffer := none,
                    minQuantity := .undefined, maxQuantity := .num 10 },
        .add 22, .content [[1100], [650]], .content [[600], [150]],
        .content [[100], [50]] ]
      = ([ { quantity := 10, after := [] },
           { quantity := 10, after := [650] },
           { quantity := 2, after := [150] } ], none) := by decide

/-- Reproduction of the minQuantity test of `chained.test.ts`: quantities of
1 under floor 5 emit 5 exactly each time the surplus reaches the floor with
an unconsumed cursor. -/
theorem test_min_quantity_batches :
    getChainedLoadInstruction
      [ .settings { contentHeight := .num 20, buffer := none,
                    minQuantity := .num 5, maxQuantity := .undefined },
        .add 1, .add 1, .add 1, .add 1, .add 1, .add 1, .add 1,
        .content [[0], [4]],
        .add 1, .add 1, .add 1, .add 1, .add 1, .add 1,
        .content [[5], [9]],
        .add 1, .add 1, .add 1, .add 1 ]
      = ([ { quantity := 5, after := [] },
           { quantity := 5, after := [4] },
           { quantity := 5, after := [9] } ], none) := by decide

/-- Reproduction of the scroll-or-resize test of `chained.test.ts`
(scenario B): quantities 4, 3, 1 with the cursor advancing through the
batches. -/
theorem test_scroll_batches :
    getChainedLoadInstruction
      [ .settings { contentHeight := .num 50, buffer := none,
                    minQuantity := .undefined, maxQuantity := .undefined },
        .add 4, .content [[535], [48]], .add 3, .add 1,
        .content [[422], [355]] ]
      = ([ { quantity := 4, after := [] },
           { quantity := 3, after := [48] },
           { quantity := 1, after := [355] } ], none) := by decide

/-- Reproduction of the buffer test of `raw.test.ts`: buffer values 50, 150,
100 under contentHeight 25 give shortfall deltas 50 and 100 (the decrease
gives none), the first one produced by the very first settings value. -/
theorem test_buffer_deltas :
    Raw.getBufferDelta (Raw.makeValidSettings (some
      [{ contentHeight := some 25, buffer := some 50, debounce := none, throttle := none },
       { contentHeight := some 25, buffer := some 150, debounce := none, throttle := none },
       { contentHeight := some 25, buffer := some 100, debounce := none, throttle := none }]))
      = [50, 100] := by decide

/-- Reproduction of the buffer-ignored test of `raw.test.ts`: without a
contentHeight the buffer setting produces no instruction. -/
theorem test_buffer_ignored_without_content_height :
    Raw.getRawLoadInstruction none none (some
      [{ contentHeight := none, buffer := some 75, debounce := none, throttle := none },
       { contentHeight := none, buffer := some 100, debounce := none, throttle := none }])
      = [] := by decide

/-- Reproduction of the contentHeight test of `raw.test.ts`: deltaY 110 with
contentHeight 25 gives quantity 5. -/
theorem test_apply_setting_to_value :
    Raw.applySettingToValue 25 110 = { quantity := some 5 } := by decide

/-! ### Basic lemmas about the chained machine -/

theorem statesFold_append (st : ChainedState) (l₁ l₂ : List ChainedEvent) :
    statesFold st (l₁ ++ l₂) = statesFold (statesFold st l₁) l₂ :=
  List.foldl_append _ _ _ _

theorem chainedOutputs_append (st : ChainedState) (l₁ l₂ : List ChainedEvent) :
    chainedOutputs st (l₁ ++ l₂)
      = chainedOutputs st l₁ ++ chainedOutputs (statesFold st l₁) l₂ := by
  induction l₁ generalizing st with
  | nil => simp [chainedOutputs, statesFold]
  | cons e l ih =>
      have h1 : (e :: l) ++ l₂ = e :: (l ++ l₂) := rfl
      rw [h1]
      show (chainedStep st e).2.1.toList ++ chainedOutputs (stepState st e) (l ++ l₂) = _
      rw [ih (stepState st e)]
      have h2 : statesFold st (e :: l) = statesFold (stepState st e) l := rfl
      have h3 : chainedOutputs st (e :: l)
          = (chainedStep st e).2.1.toList ++ chainedOutputs (stepState st e) l := rfl
      rw [h2, h3, List.append_assoc]

theorem chainedStep_dead {st : ChainedState} {err : SettingsError}
    (h : st.dead = some err) (e : ChainedEvent) :
    chainedStep st e = (st, none, none) := by
  simp [chainedStep, h]

theorem statesFold_dead {st : ChainedState} {err : SettingsError}
    (h : st.dead = some err) (l : List ChainedEvent) :
    statesFold st l = st := by
  induction l with
  | nil => rfl
  | cons e l ih =>
      simp only [statesFold, List.foldl_cons]
      have he : stepState st e = st := by simp [stepState, chainedStep_dead h]
      rw [he]
      exact ih

theorem chainedOutputs_dead {st : ChainedState} {err : SettingsError}
    (h : st.dead = some err) (l : List ChainedEvent) :
    chainedOutputs st l = [] := by
  induction l with
  | nil => rfl
  | cons e l ih =>
      simp only [chainedOutputs, chainedStep_dead h, Option.toList_none, List.nil_append]
      have he : stepState st e = st := by simp [stepState, chainedStep_dead h]
      rw [he]
      exact ih

theorem take_succ_of_get? {tr : List ChainedEvent} {i : ℕ} {e : ChainedEvent}
    (h : tr.get? i = some e) :
    tr.take (i + 1) = tr.take i ++ [e] := by
  rw [List.get?_eq_getElem?] at h
  rw [List.take_succ, h]
  rfl

theorem stateAfter_take_succ {tr : List ChainedEvent} {i : ℕ} {e : ChainedEvent}
    (h : tr.get? i = some e) :
    stateAfter (tr.take (i + 1)) = stepState (stateAfter (tr.take i)) e := by
  rw [take_succ_of_get? h]
  simp [stateAfter, statesFold_append, statesFold, stepState]

@[simp] theorem pushRemaining_latestAfter (st : ChainedState) :
    (pushRemaining st).latestAfter = st.latestAfter := by
  unfold pushRemaining
  split <;> rfl

@[simp] theorem pushRemaining_freshAfter (st : ChainedState) :
    (pushRemaining st).freshAfter = st.freshAfter := by
  unfold pushRemaining
  split <;> rfl

@[simp] theorem pushRemaining_dead (st : ChainedState) :
    (pushRemaining st).dead = st.dead := by
  unfold pushRemaining
  split <;> rfl

@[simp] theorem pushRemaining_surplus (st : ChainedState) :
    (pushRemaining st).surplus = st.surplus := by
  unfold pushRemaining
  split <;> rfl

@[simp] theorem pushRemaining_minQ (st : ChainedState) :
    (pushRemaining st).minQ = st.minQ := by
  unfold pushRemaining
  split <;> rfl

@[simp] theorem pushRemaining_maxQ (st : ChainedState) :
    (pushRemaining st).maxQ = st.maxQ := by
  unfold pushRemaining
  split <;> rfl

@[simp] theorem pushRemaining_started (st : ChainedState) :
    (pushRemaining st).started = st.started := by
  unfold pushRemaining
  split <;> rfl

theorem tryEmit_pos {st : ChainedState}
    (h : st.freshRem = true ∧ st.freshAfter = true) :
    tryEmit st =
      (pushRemaining { st with freshRem := false, freshAfter := false,
                               surplus := st.surplus
                                 - applyMaxQuantity st.maxQ st.latestRem },
       some { quantity := applyMaxQuantity st.maxQ st.latestRem,
              after := st.latestAfter }) := by
  unfold tryEmit
  rw [if_pos h]

theorem tryEmit_eq_none {st : ChainedState}
    (h : ¬(st.freshRem = true ∧ st.freshAfter = true)) :
    tryEmit st = (st, none) := by
  unfold tryEmit
  rw [if_neg h]

theorem tryEmit_eq_some {st : ChainedState} {out : ChainedLoadInstruction}
    (h : (tryEmit st).2 = some out) :
    st.freshRem = true ∧ st.freshAfter = true ∧
    out = { quantity := applyMaxQuantity st.maxQ st.latestRem,
            after := st.latestAfter } ∧
    (tryEmit st).1 = pushRemaining
      { st with freshRem := false, freshAfter := false,
                surplus := st.surplus - applyMaxQuantity st.maxQ st.latestRem } := by
  by_cases hc : st.freshRem = true ∧ st.freshAfter = true
  · rw [tryEmit_pos hc] at h ⊢
    exact ⟨hc.1, hc.2, (Option.some.inj h).symm, rfl⟩
  · rw [tryEmit_eq_none hc] at h
    exact absurd h (by simp)

theorem chainedStep_add_pos {st : ChainedState} {q : ℤ} (hd : st.dead = none)
    (hq : quantityIsPositive q = true) :
    chainedStep st (.add q)
      = ((tryEmit (pushRemaining { st with surplus := st.surplus + q })).1,
         (tryEmit (pushRemaining { st with surplus := st.surplus + q })).2,
         none) := by
  unfold chainedStep
  rw [if_neg (by simp [hd])]
  simp only [hq, if_true]

theorem chainedStep_add_nonpos {st : ChainedState} {q : ℤ} (hd : st.dead = none)
    (hq : quantityIsPositive q = false) :
    chainedStep st (.add q) = (st, none, none) := by
  unfold chainedStep
  rw [if_neg (by simp [hd])]
  simp only [hq, Bool.false_eq_true, if_false]

theorem chainedStep_content_some {st : ChainedState} {b : List (List ℤ)}
    {k : List ℤ} (hd : st.dead = none) (hk : getAfter b = some k) :
    chainedStep st (.content b)
      = ((tryEmit { st with latestAfter := k, freshAfter := true }).1,
         (tryEmit { st with latestAfter := k, freshAfter := true }).2,
         none) := by
  unfold chainedStep
  rw [if_neg (by simp [hd])]
  simp only [hk]

theorem chainedStep_content_none {st : ChainedState} {b : List (List ℤ)}
    (hd : st.dead = none) (hk : getAfter b = none) :
    chainedStep st (.content b) = (st, none, none) := by
  unfold chainedStep
  rw [if_neg (by simp [hd])]
  simp only [hk]

theorem chainedStep_settings_invalid {st : ChainedState} {s : Settings}
    {err : SettingsError} (hd : st.dead = none)
    (hs : spotInvalidSettings s = some err) :
    chainedStep st (.settings s) = ({ st with dead := some err }, none, some err) := by
  unfold chainedStep
  rw [if_neg (by simp [hd])]
  simp only [hs]

theorem chainedStep_settings_valid {st : ChainedState} {s : Settings}
    (hd : st.dead = none) (hs : spotInvalidSettings s = none) :
    chainedStep st (.settings s)
      = ({ st with minQ := jsToOpt s.minQuantity, maxQ := jsToOpt s.maxQuantity,
                   started := true }, none, none) := by
  unfold chainedStep
  rw [if_neg (by simp [hd])]
  simp only [hs]

theorem chainedStep_settings_no_emit (st : ChainedState) (s : Settings) :
    (chainedStep st (.settings s)).2.1 = none := by
  by_cases hd : st.dead.isSome
  · obtain ⟨err, herr⟩ := Option.isSome_iff_exists.mp hd
    rw [chainedStep_dead herr]
  · have hdn : st.dead = none := Option.not_isSome_iff_eq_none.mp hd
    cases hs : spotInvalidSettings s with
    | none => rw [chainedStep_settings_valid hdn hs]
    | some err => rw [chainedStep_settings_invalid hdn hs]

/-- Anatomy of an emission: the state was live, the step leaves it live with
its settings untouched, the cursor slot is consumed, the emitted cursor is
the post-step cursor, and the emitted quantity is capped by the installed
ceiling. -/
theorem emit_anatomy {st : ChainedState} {e : ChainedEvent}
    {out : ChainedLoadInstruction}
    (h : (chainedStep st e).2.1 = some out) :
    st.dead = none ∧ (chainedStep st e).1.dead = none ∧
    (chainedStep st e).1.freshAfter = false ∧
    (chainedStep st e).1.maxQ = st.maxQ ∧
    (chainedStep st e).1.minQ = st.minQ ∧
    (chainedStep st e).1.started = st.started ∧
    out.after = (chainedStep st e).1.latestAfter ∧
    (∃ r, out.quantity = applyMaxQuantity st.maxQ r) := by
  by_cases hd : st.dead.isSome
  · obtain ⟨err, herr⟩ := Option.isSome_iff_exists.mp hd
    rw [chainedStep_dead herr] at h
    exact absurd h (by simp)
  · have hdn : st.dead = none := Option.not_isSome_iff_eq_none.mp hd
    cases e with
    | settings s => exact absurd h (by simp [chainedStep_settings_no_emit])
    | add q =>
        cases hq : quantityIsPositive q with
        | false =>
            rw [chainedStep_add_nonpos hdn hq] at h
            exact absurd h (by simp)
        | true =>
            rw [chainedStep_add_pos hdn hq] at h ⊢
            obtain ⟨hfr, hfa, hout, hst⟩ := tryEmit_eq_some h
            rw [hst, hout]
            exact ⟨hdn, by simp [hdn], by simp, by simp, by simp, by simp,
              by simp,
              ⟨(pushRemaining { st with surplus := st.surplus + q }).latestRem,
                by simp⟩⟩
    | content b =>
        cases hk : getAfter b with
        | none =>
            rw [chainedStep_content_none hdn hk] at h
            exact absurd h (by simp)
        | some k =>
            rw [chainedStep_content_some hdn hk] at h ⊢
            obtain ⟨hfr, hfa, hout, hst⟩ := tryEmit_eq_some h
            rw [hst, hout]
            exact ⟨hdn, by simp [hdn], by simp, by simp, by simp, by simp,
              by simp, ⟨st.latestRem, by simp⟩⟩

/-- A step whose event carries no qualifying cursor key cannot emit while the
cursor slot is consumed, and leaves the slot consumed. -/
theorem step_freshAfter_false {st : ChainedState} {e : ChainedEvent}
    (hA : st.freshAfter = false) (hq : qualKeyOf e = none) :
    (chainedStep st e).2.1 = none ∧ (chainedStep st e).1.freshAfter = false := by
  by_cases hd : st.dead.isSome
  · obtain ⟨err, herr⟩ := Option.isSome_iff_exists.mp hd
    rw [chainedStep_dead herr]
    exact ⟨rfl, hA⟩
  · have hdn : st.dead = none := Option.not_isSome_iff_eq_none.mp hd
    cases e with
    | settings s =>
        cases hs : spotInvalidSettings s with
        | none => rw [chainedStep_settings_valid hdn hs]; exact ⟨rfl, hA⟩
        | some err => rw [chainedStep_settings_invalid hdn hs]; exact ⟨rfl, hA⟩
    | add q =>
        cases hp : quantityIsPositive q with
        | false => rw [chainedStep_add_nonpos hdn hp]; exact ⟨rfl, hA⟩
        | true =>
            rw [chainedStep_add_pos hdn hp]
            have hA2 : (pushRemaining
                { st with surplus := st.surplus + q }).freshAfter = false := by
              simp [hA]
            rw [tryEmit_eq_none (by rw [hA2]; simp)]
            exact ⟨rfl, hA2⟩
    | content b =>
        have hb : getAfter b = none := hq
        rw [chainedStep_content_none hdn hb]
        exact ⟨rfl, hA⟩

/-- Propagation of a consumed cursor slot over a segment without qualifying
content events. -/
theorem fold_freshAfter_false {st : ChainedState} {l : List ChainedEvent}
    (hA : st.freshAfter = false) (hq : ∀ e ∈ l, qualKeyOf e = none) :
    (statesFold st l).freshAfter = false := by
  induction l generalizing st with
  | nil => exact hA
  | cons e l ih =>
      have h1 := step_freshAfter_false hA (hq e (List.mem_cons_self e l))
      exact ih h1.2 (fun e' he' => hq e' (List.mem_cons_of_mem e he'))

/-- A live step updates the cursor exactly as the key of the event (if
qualifying) prescribes. -/
theorem step_latestAfter {st : ChainedState} {e : ChainedEvent}
    (hd : st.dead = none) :
    (chainedStep st e).1.latestAfter = (qualKeyOf e).getD st.latestAfter := by
  cases e with
  | settings s =>
      cases hs : spotInvalidSettings s with
      | none => rw [chainedStep_settings_valid hd hs]; rfl
      | some err => rw [chainedStep_settings_invalid hd hs]; rfl
  | add q =>
      cases hp : quantityIsPositive q with
      | false => rw [chainedStep_add_nonpos hd hp]; rfl
      | true =>
          rw [chainedStep_add_pos hd hp]
          by_cases hc : (pushRemaining { st with surplus := st.surplus + q }).freshRem
              = true ∧
              (pushRemaining { st with surplus := st.surplus + q }).freshAfter = true
          · rw [tryEmit_pos hc]; simp [qualKeyOf]
          · rw [tryEmit_eq_none hc]; simp [qualKeyOf]
  | content b =>
      cases hb : getAfter b with
      | none =>
          rw [chainedStep_content_none hd hb]
          simp [qualKeyOf, hb]
      | some k =>
          rw [chainedStep_content_some hd hb]
          by_cases hc : ({ st with latestAfter := k, freshAfter := true
              } : ChainedState).freshRem = true ∧
              ({ st with latestAfter := k, freshAfter := true
              } : ChainedState).freshAfter = true
          · rw [tryEmit_pos hc]; simp [qualKeyOf, hb]
          · rw [tryEmit_eq_none hc]; simp [qualKeyOf, hb]

/-- The cursor a live state holds is the fold of the qualifying keys over the
processed events. -/
theorem latestAfter_fold {l : List ChainedEvent} {st : ChainedState}
    (h : (statesFold st l).dead = none) :
    (statesFold st l).latestAfter
      = l.foldl (fun c e => (qualKeyOf e).getD c) st.latestAfter := by
  induction l generalizing st with
  | nil => rfl
  | cons e l ih =>
      by_cases hd : st.dead.isSome
      · obtain ⟨err, herr⟩ := Option.isSome_iff_exists.mp hd
        rw [statesFold_dead herr] at h
        rw [herr] at h
        exact absurd h (by simp)
      · have hdn : st.dead = none := Option.not_isSome_iff_eq_none.mp hd
        have hstep : statesFold st (e :: l) = statesFold (stepState st e) l := rfl
        rw [hstep] at h ⊢
        rw [ih h]
        have : (stepState st e).latestAfter = (qualKeyOf e).getD st.latestAfter :=
          step_latestAfter hdn
        rw [List.foldl_cons, this]

/-- The cursor a live run holds is `specCursor`. -/
theorem stateAfter_latestAfter {tr : List ChainedEvent}
    (h : (stateAfter tr).dead = none) :
    (stateAfter tr).latestAfter = specCursor tr :=
  latestAfter_fold h

/-- The cursor carried by an emitted instruction is the `specCursor` of the
processed prefix, event included. -/
theorem emitAt_after_eq {tr : List ChainedEvent} {i : ℕ}
    {out : ChainedLoadInstruction} (h : emitAt tr i = some out) :
    out.after = specCursor (tr.take (i + 1)) := by
  unfold emitAt at h
  cases hg : tr.get? i with
  | none => rw [hg] at h; simp at h
  | some e =>
      rw [hg] at h
      obtain ⟨hdn, hdn', hfa, hM, hm, hs, hout, hcap⟩ := emit_anatomy h
      have hstep := stateAfter_take_succ hg
      have hlive : (stateAfter (tr.take (i + 1))).dead = none := by
        rw [hstep]; exact hdn'
      rw [hout]
      have : (stateAfter (tr.take (i + 1))).latestAfter
          = specCursor (tr.take (i + 1)) := stateAfter_latestAfter hlive
      rw [← this, hstep]
      rfl

/-! ### Invariants: floor and ceiling behaviour -/

theorem applyMaxQuantity_le_self (maxQ : Option ℤ) (q : ℤ) :
    applyMaxQuantity maxQ q ≤ q := by
  cases maxQ with
  | none => exact le_refl q
  | some m => exact min_le_left q m

theorem applyMaxQuantity_le_cap (M q : ℤ) :
    applyMaxQuantity (some M) q ≤ M := min_le_right q M

theorem applyMinQuantity_mono {m : Option ℤ} {a b : ℤ} (hab : a ≤ b)
    (h : applyMinQuantity m a = true) : applyMinQuantity m b = true := by
  cases m with
  | none => rfl
  | some mv =>
      simp only [applyMinQuantity, decide_eq_true_eq] at h ⊢
      omega

theorem pushRemaining_pos {st : ChainedState}
    (h : st.started = true ∧ quantityIsPositive st.surplus = true ∧
         applyMinQuantity st.minQ st.surplus = true) :
    pushRemaining st = { st with latestRem := st.surplus, freshRem := true } := by
  unfold pushRemaining
  rw [if_pos h]

theorem pushRemaining_neg {st : ChainedState}
    (h : ¬(st.started = true ∧ quantityIsPositive st.surplus = true ∧
           applyMinQuantity st.minQ st.surplus = true)) :
    pushRemaining st = st := by
  unfold pushRemaining
  rw [if_neg h]

/-- After an emission the feedback re-offers the decreased surplus; whatever
the filters decide, the resulting state satisfies the running invariant. -/
theorem pushRemaining_inv {m M : Option ℤ} {x : ChainedState}
    (hd : x.dead = none) (hst : x.started = true) (hm : x.minQ = m)
    (hM : x.maxQ = M) (hs : 0 ≤ x.surplus) (hfr : x.freshRem = false) :
    FixedInv m M (pushRemaining x) := by
  by_cases hc : x.started = true ∧ quantityIsPositive x.surplus = true ∧
      applyMinQuantity x.minQ x.surplus = true
  · rw [pushRemaining_pos hc]
    refine ⟨hd, hst, hm, hM, hs, fun _ => ⟨rfl, ?_, ?_⟩⟩
    · have := hc.2.1
      simpa [quantityIsPositive] using this
    · rw [← hm]; exact hc.2.2
  · rw [pushRemaining_neg hc]
    exact ⟨hd, hst, hm, hM, hs, fun hf => absurd hf (by rw [hfr]; simp)⟩

/-- A qualifying raw quantity whose accumulated surplus is offered while the
surplus slot is already fresh always refreshes it: the filters cannot
reject the larger value. -/
theorem pushRemaining_forced {m M : Option ℤ} {st : ChainedState} {q : ℤ}
    (hInv : FixedInv m M st) (hq : 0 < q) (hfr : st.freshRem = true) :
    ({ st with surplus := st.surplus + q } : ChainedState).started = true ∧
    quantityIsPositive ({ st with surplus := st.surplus + q
      } : ChainedState).surplus = true ∧
    applyMinQuantity ({ st with surplus := st.surplus + q } : ChainedState).minQ
      ({ st with surplus := st.surplus + q } : ChainedState).surplus = true := by
  obtain ⟨hd, hst, hm, hM, hs, hf⟩ := hInv
  obtain ⟨hlr, hpos, hmin⟩ := hf hfr
  refine ⟨hst, ?_, ?_⟩
  · simp only [quantityIsPositive, decide_eq_true_eq]
    omega
  · have h0 : applyMinQuantity st.minQ st.surplus = true := by
      rw [hm, ← hlr]
      exact hmin
    have hab : st.surplus ≤ st.surplus + q := by omega
    exact applyMinQuantity_mono hab h0

/-- The emission attempt preserves the running invariant, whatever the
freshness marks are: either nothing happens, or the capped quantity is
subtracted and the feedback re-offers the rest. -/
theorem tryEmit_inv {m M : Option ℤ} {x : ChainedState}
    (hd : x.dead = none) (hst : x.started = true) (hm : x.minQ = m)
    (hM : x.maxQ = M) (hs : 0 ≤ x.surplus)
    (hlat : x.freshRem = true → x.latestRem = x.surplus ∧ 0 < x.latestRem ∧
      applyMinQuantity m x.latestRem = true) :
    FixedInv m M (tryEmit x).1 := by
  by_cases hc : x.freshRem = true ∧ x.freshAfter = true
  · rw [tryEmit_pos hc]
    refine pushRemaining_inv ?_ ?_ ?_ ?_ ?_ ?_
    · simpa using hd
    · simpa using hst
    · simpa using hm
    · simpa using hM
    · have h1 := (hlat hc.1).1
      have h2 := applyMaxQuantity_le_self x.maxQ x.latestRem
      show 0 ≤ x.surplus - applyMaxQuantity x.maxQ x.latestRem
      omega
    · rfl
  · rw [tryEmit_eq_none hc]
    exact ⟨hd, hst, hm, hM, hs, hlat⟩

/-- Preservation of the running invariant by non-settings events. -/
theorem fixedInv_step {m M : Option ℤ} {st : ChainedState} {e : ChainedEvent}
    (hInv : FixedInv m M st) (he : notSettings e = true) :
    FixedInv m M (stepState st e) := by
  obtain ⟨hd, hst, hm, hM, hs, hf⟩ := hInv
  cases e with
  | settings s => exact absurd he (by simp [notSettings])
  | add q =>
      cases hp : quantityIsPositive q with
      | false =>
          unfold stepState
          rw [chainedStep_add_nonpos hd hp]
          exact ⟨hd, hst, hm, hM, hs, hf⟩
      | true =>
          have hq : 0 < q := by simpa [quantityIsPositive] using hp
          unfold stepState
          rw [chainedStep_add_pos hd hp]
          show FixedInv m M
            (tryEmit (pushRemaining { st with surplus := st.surplus + q })).1
          refine tryEmit_inv (by simpa using hd) (by simpa using hst)
            (by simpa using hm) (by simpa using hM)
            (by rw [pushRemaining_surplus]; show (0:ℤ) ≤ st.surplus + q; omega)
            ?_
          intro hfr
          by_cases hc : ({ st with surplus := st.surplus + q
              } : ChainedState).started = true ∧
              quantityIsPositive ({ st with surplus := st.surplus + q
                } : ChainedState).surplus = true ∧
              applyMinQuantity ({ st with surplus := st.surplus + q
                } : ChainedState).minQ
                ({ st with surplus := st.surplus + q } : ChainedState).surplus
                = true
          · rw [pushRemaining_pos hc]
            refine ⟨rfl, ?_, ?_⟩
            · have := hc.2.1
              show (0:ℤ) < st.surplus + q
              simpa [quantityIsPositive] using this
            · show applyMinQuantity m (st.surplus + q) = true
              have := hc.2.2
              rw [← hm]
              exact this
          · rw [pushRemaining_neg hc] at hfr ⊢
            have hfr2 : st.freshRem = true := hfr
            exact absurd (pushRemaining_forced ⟨hd, hst, hm, hM, hs, hf⟩ hq hfr2)
              hc
  | content b =>
      cases hk : getAfter b with
      | none =>
          unfold stepState
          rw [chainedStep_content_none hd hk]
          exact ⟨hd, hst, hm, hM, hs, hf⟩
      | some k =>
          unfold stepState
          rw [chainedStep_content_some hd hk]
          show FixedInv m M
            (tryEmit { st with latestAfter := k, freshAfter := true }).1
          exact tryEmit_inv hd hst hm hM hs hf

/-- The emission attempt does not touch the settings-derived fields. -/
theorem tryEmit_preserves (x : ChainedState) :
    (tryEmit x).1.maxQ = x.maxQ ∧ (tryEmit x).1.minQ = x.minQ ∧
    (tryEmit x).1.started = x.started ∧ (tryEmit x).1.dead = x.dead := by
  by_cases hc : x.freshRem = true ∧ x.freshAfter = true
  · rw [tryEmit_pos hc]
    exact ⟨by simp, by simp, by simp, by simp⟩
  · rw [tryEmit_eq_none hc]
    exact ⟨rfl, rfl, rfl, rfl⟩

/-- Non-settings events do not touch the settings-derived fields. -/
theorem step_preserves {st : ChainedState} {e : ChainedEvent}
    (he : notSettings e = true) :
    (chainedStep st e).1.maxQ = st.maxQ ∧ (chainedStep st e).1.minQ = st.minQ ∧
    (chainedStep st e).1.started = st.started ∧
    (chainedStep st e).1.dead = st.dead := by
  by_cases hd : st.dead.isSome
  · obtain ⟨err, herr⟩ := Option.isSome_iff_exists.mp hd
    rw [chainedStep_dead herr]
    exact ⟨rfl, rfl, rfl, rfl⟩
  · have hdn := Option.not_isSome_iff_eq_none.mp hd
    cases e with
    | settings s => exact absurd he (by simp [notSettings])
    | add q =>
        cases hp : quantityIsPositive q with
        | false =>
            rw [chainedStep_add_nonpos hdn hp]
            exact ⟨rfl, rfl, rfl, rfl⟩
        | true =>
            rw [chainedStep_add_pos hdn hp]
            have h4 := tryEmit_preserves
              (pushRemaining { st with surplus := st.surplus + q })
            simpa using h4
    | content b =>
        cases hk : getAfter b with
        | none =>
            rw [chainedStep_content_none hdn hk]
            exact ⟨rfl, rfl, rfl, rfl⟩
        | some k =>
            rw [chainedStep_content_some hdn hk]
            have h4 := tryEmit_preserves
              { st with latestAfter := k, freshAfter := true }
            simpa using h4

theorem sumQ_append (l₁ l₂ : List ChainedLoadInstruction) :
    sumQ (l₁ ++ l₂) = sumQ l₁ + sumQ l₂ := by
  simp [sumQ]

theorem sumQ_toList (o : Option ChainedLoadInstruction) :
    sumQ o.toList = outQty o := by
  cases o <;> simp [sumQ, outQty]

/-- Per-event conservation: the quantity an event adds to the surplus either
stays in the surplus or leaves with the emitted instruction, synchronously. -/
theorem step_conservation {st : ChainedState} {e : ChainedEvent}
    (hd : st.dead = none) (he : notSettings e = true) :
    (chainedStep st e).1.surplus + outQty (chainedStep st e).2.1
      = st.surplus + addQty e := by
  cases e with
  | settings s => exact absurd he (by simp [notSettings])
  | add q =>
      cases hp : quantityIsPositive q with
      | false =>
          rw [chainedStep_add_nonpos hd hp]
          simp [outQty, addQty, hp]
      | true =>
          rw [chainedStep_add_pos hd hp]
          by_cases hc : (pushRemaining { st with surplus := st.surplus + q
              }).freshRem = true ∧
              (pushRemaining { st with surplus := st.surplus + q
              }).freshAfter = true
          · rw [tryEmit_pos hc]
            show (pushRemaining _).surplus + outQty (some _) = _
            rw [pushRemaining_surplus]
            simp only [outQty, addQty, hp, if_true, pushRemaining_surplus]
            ring
          · rw [tryEmit_eq_none hc]
            show (pushRemaining _).surplus + outQty none = _
            rw [pushRemaining_surplus]
            simp [outQty, addQty, hp]
  | content b =>
      cases hk : getAfter b with
      | none =>
          rw [chainedStep_content_none hd hk]
          simp [outQty, addQty]
      | some k =>
          rw [chainedStep_content_some hd hk]
          by_cases hc : ({ st with latestAfter := k, freshAfter := true
              } : ChainedState).freshRem = true ∧
              ({ st with latestAfter := k, freshAfter := true
              } : ChainedState).freshAfter = true
          · rw [tryEmit_pos hc]
            show (pushRemaining _).surplus + outQty (some _) = _
            rw [pushRemaining_surplus]
            simp only [outQty, addQty]
            ring
          · rw [tryEmit_eq_none hc]
            simp [outQty, addQty]

/-- Conservation over a run without settings events: final surplus plus the
sum of the emitted quantities equals the initial surplus plus the sum of the
added quantities. -/
theorem fold_conservation {st : ChainedState} {l : List ChainedEvent}
    (hd : st.dead = none) (hns : ∀ e ∈ l, notSettings e = true) :
    (statesFold st l).surplus + sumQ (chainedOutputs st l)
      = st.surplus + sumAdds l := by
  induction l generalizing st with
  | nil => simp [statesFold, chainedOutputs, sumQ, sumAdds]
  | cons e l ih =>
      have he := hns e (List.mem_cons_self e l)
      have hd' : (stepState st e).dead = none := by
        have := (@step_preserves st e he).2.2.2
        unfold stepState
        rw [this, hd]
      have hout : chainedOutputs st (e :: l)
          = (chainedStep st e).2.1.toList ++ chainedOutputs (stepState st e) l :=
        rfl
      have hfold : statesFold st (e :: l) = statesFold (stepState st e) l := rfl
      rw [hout, hfold, sumQ_append, sumQ_toList]
      have h1 := ih hd' (fun e' he' => hns e' (List.mem_cons_of_mem e he'))
      have h2 := step_conservation hd he
      have h3 : sumAdds (e :: l) = addQty e + sumAdds l := by
        simp [sumAdds]
      simp only [stepState] at h1 ⊢
      omega

/-- Every instruction emitted under an installed ceiling is ceiling-bounded. -/
theorem step_cap_le {st : ChainedState} {e : ChainedEvent}
    {out : ChainedLoadInstruction} {M : ℤ} (hM : st.maxQ = some M)
    (h : (chainedStep st e).2.1 = some out) : out.quantity ≤ M := by
  obtain ⟨h1, h2, h3, h4, h5, h6, h7, r, hr⟩ := emit_anatomy h
  rw [hr, hM]
  exact applyMaxQuantity_le_cap M r

theorem fold_cap_le {st : ChainedState} {l : List ChainedEvent} {M : ℤ}
    (hM : st.maxQ = some M) (hns : ∀ e ∈ l, notSettings e = true) :
    ∀ out ∈ chainedOutputs st l, out.quantity ≤ M := by
  induction l generalizing st with
  | nil => simp [chainedOutputs]
  | cons e l ih =>
      intro out hmem
      have he := hns e (List.mem_cons_self e l)
      have hout : chainedOutputs st (e :: l)
          = (chainedStep st e).2.1.toList ++ chainedOutputs (stepState st e) l :=
        rfl
      rw [hout] at hmem
      rcases List.mem_append.mp hmem with hmem | hmem
  -- the instruction is the one emitted at this event, or one of a later event
      · have hsome : (chainedStep st e).2.1 = some out := by
          cases ho : (chainedStep st e).2.1 with
          | none => rw [ho] at hmem; simp at hmem
          | some o =>
              rw [ho] at hmem
              simp at hmem
              rw [hmem]
        exact step_cap_le hM hsome
      · have hM' : (stepState st e).maxQ = some M := by
          have := (@step_preserves st e he).1
          unfold stepState
          rw [this, hM]
        exact ih hM' (fun e' he' => hns e' (List.mem_cons_of_mem e he')) out hmem

/-- The quantity law of an emission under the running invariant: the emitted
quantity is the ceiling-capped pending surplus, and it is subtracted from the
surplus synchronously. -/
theorem emission_quantity {m M : Option ℤ} {st : ChainedState}
    {e : ChainedEvent} {out : ChainedLoadInstruction}
    (hInv : FixedInv m M st) (he : notSettings e = true)
    (h : (chainedStep st e).2.1 = some out) :
    out.quantity = applyMaxQuantity M (st.surplus + addQty e) ∧
    (chainedStep st e).1.surplus = st.surplus + addQty e - out.quantity := by
  obtain ⟨hd, hst, hm, hM, hs, hf⟩ := hInv
  cases e with
  | settings s => exact absurd he (by simp [notSettings])
  | add q =>
      cases hp : quantityIsPositive q with
      | false =>
          rw [chainedStep_add_nonpos hd hp] at h
          exact absurd h (by simp)
      | true =>
          have hq : 0 < q := by simpa [quantityIsPositive] using hp
          rw [chainedStep_add_pos hd hp] at h ⊢
          obtain ⟨hfr, hfa, hout, hst1⟩ := tryEmit_eq_some h
          have hadd : addQty (ChainedEvent.add q) = q := by
            simp [addQty, hp]
          by_cases hc : ({ st with surplus := st.surplus + q
              } : ChainedState).started = true ∧
              quantityIsPositive ({ st with surplus := st.surplus + q
                } : ChainedState).surplus = true ∧
              applyMinQuantity ({ st with surplus := st.surplus + q
                } : ChainedState).minQ
                ({ st with surplus := st.surplus + q } : ChainedState).surplus
                = true
          · have hx : pushRemaining { st with surplus := st.surplus + q }
                = { st with surplus := st.surplus + q,
                            latestRem := st.surplus + q, freshRem := true } := by
              rw [pushRemaining_pos hc]
            have hq1 : out.quantity
                = applyMaxQuantity M (st.surplus + addQty (ChainedEvent.add q)) := by
              rw [hout, hx, hadd]
              show applyMaxQuantity st.maxQ (st.surplus + q) = _
              rw [hM]
            refine ⟨hq1, ?_⟩
            show (tryEmit (pushRemaining { st with surplus := st.surplus + q
              })).1.surplus = _
            rw [hst1]
            simp only [pushRemaining_surplus]
            rw [hq1, hx, hadd]
            show st.surplus + q
                - applyMaxQuantity st.maxQ (st.surplus + q) = _
            rw [hM]
          · rw [pushRemaining_neg hc] at hfr
            have hfr2 : st.freshRem = true := hfr
            exact absurd (pushRemaining_forced ⟨hd, hst, hm, hM, hs, hf⟩ hq hfr2)
              hc
  | content b =>
      cases hk : getAfter b with
      | none =>
          rw [chainedStep_content_none hd hk] at h
          exact absurd h (by simp)
      | some k =>
          rw [chainedStep_content_some hd hk] at h ⊢
          obtain ⟨hfr, hfa, hout, hst1⟩ := tryEmit_eq_some h
          have hfr2 : st.freshRem = true := hfr
          obtain ⟨hlr, hpos, hmin⟩ := hf hfr2
          have hadd : addQty (ChainedEvent.content b) = 0 := rfl
          have hq1 : out.quantity
              = applyMaxQuantity M (st.surplus + addQty (ChainedEvent.content b)) := by
            rw [hout, hadd, add_zero]
            show applyMaxQuantity st.maxQ st.latestRem = _
            rw [hM, hlr]
          refine ⟨hq1, ?_⟩
          show (tryEmit ({ st with latestAfter := k, freshAfter := true
            } : ChainedState)).1.surplus = _
          rw [hst1]
          simp only [pushRemaining_surplus]
          rw [hq1, hadd, add_zero]
          show st.surplus - applyMaxQuantity st.maxQ st.latestRem = _
          rw [hM, hlr]

theorem fixedInv_fold {m M : Option ℤ} {st : ChainedState}
    {l : List ChainedEvent} (hInv : FixedInv m M st)
    (hns : ∀ e ∈ l, notSettings e = true) :
    FixedInv m M (statesFold st l) := by
  induction l generalizing st with
  | nil => exact hInv
  | cons e l ih =>
      exact ih (fixedInv_step hInv (hns e (List.mem_cons_self e l)))
        (fun e' he' => hns e' (List.mem_cons_of_mem e he'))

/-! ### The drain scenario -/

theorem mkSettings_valid {M : ℤ} (hM : 1 ≤ M) :
    spotInvalidSettings (mkSettings none (some M)) = none := by
  unfold spotInvalidSettings settingsAreValid mkSettings
  simp only [isContentHeightValid, isMinQuantityValid, isMaxQuantityValid,
    areMinAndMaxCompatible]
  rw [if_neg (by omega), if_neg (by omega)]
  rfl

/-- Re-offering a non-negative surplus to a consumed surplus slot puts the
state in the drain invariant when no floor is installed. -/
theorem pushRemaining_drain {M : ℤ} {y : ChainedState} (hd : y.dead = none)
    (hst : y.started = true) (hm : y.minQ = none) (hM : y.maxQ = some M)
    (hfr : y.freshRem = false) (hs : 0 ≤ y.surplus) :
    DrainInv M (pushRemaining y) := by
  by_cases hp : 0 < y.surplus
  · have hc : y.started = true ∧ quantityIsPositive y.surplus = true ∧
        applyMinQuantity y.minQ y.surplus = true := by
      refine ⟨hst, by simp [quantityIsPositive, hp], ?_⟩
      rw [hm]
      rfl
    rw [pushRemaining_pos hc]
    refine ⟨hd, hst, hm, hM, by simpa using hs, ?_, fun _ => rfl⟩
    show true = decide (0 < y.surplus)
    simp [hp]
  · have hc : ¬(y.started = true ∧ quantityIsPositive y.surplus = true ∧
        applyMinQuantity y.minQ y.surplus = true) := by
      intro hcon
      have := hcon.2.1
      simp only [quantityIsPositive, decide_eq_true_eq] at this
      exact hp this
    rw [pushRemaining_neg hc]
    refine ⟨hd, hst, hm, hM, hs, ?_, fun hf => absurd hf (by rw [hfr]; simp)⟩
    rw [hfr]
    simp [hp]

/-- First step of the drain scenario after the settings: a raw quantity `T`
arrives on an empty engine and mandates an emission against the initial
cursor. -/
theorem add_first_emit {M T : ℤ} (hT : 0 < T) :
    chainedStep (drainState1 M) (.add T)
      = (pushRemaining
          { surplus := 0 + T - applyMaxQuantity (some M) (0 + T),
            latestRem := 0 + T, freshRem := false, latestAfter := [],
            freshAfter := false, minQ := none, maxQ := some M,
            started := true, dead := none },
         some { quantity := applyMaxQuantity (some M) (0 + T), after := [] },
         none) := by
  have hpos : quantityIsPositive T = true := by
    simp [quantityIsPositive, hT]
  rw [chainedStep_add_pos rfl hpos]
  have hcond : ({ drainState1 M with
        surplus := (drainState1 M).surplus + T } : ChainedState).started = true ∧
      quantityIsPositive ({ drainState1 M with
        surplus := (drainState1 M).surplus + T } : ChainedState).surplus = true ∧
      applyMinQuantity ({ drainState1 M with
          surplus := (drainState1 M).surplus + T } : ChainedState).minQ
        ({ drainState1 M with
          surplus := (drainState1 M).surplus + T } : ChainedState).surplus
        = true := by
    refine ⟨rfl, ?_, rfl⟩
    show quantityIsPositive (0 + T) = true
    simp [quantityIsPositive]
    omega
  rw [pushRemaining_pos hcond]
  have hcond2 : ({ { drainState1 M with
        surplus := (drainState1 M).surplus + T } with
        latestRem := ({ drainState1 M with
          surplus := (drainState1 M).surplus + T } : ChainedState).surplus,
        freshRem := true } : ChainedState).freshRem = true ∧
      ({ { drainState1 M with
        surplus := (drainState1 M).surplus + T } with
        latestRem := ({ drainState1 M with
          surplus := (drainState1 M).surplus + T } : ChainedState).surplus,
        freshRem := true } : ChainedState).freshAfter = true := ⟨rfl, rfl⟩
  rw [tryEmit_pos hcond2]
  rfl

/-- The state after the drain scenario's settings value. -/
theorem drain_settings_step {M : ℤ} (hM : 1 ≤ M) :
    stepState initialChainedState (.settings (mkSettings none (some M)))
      = drainState1 M := by
  unfold stepState
  rw [chainedStep_settings_valid rfl (mkSettings_valid hM)]
  rfl

/-- The combined effect of the drain scenario's raw quantity `S > M`: chunk
`M` is emitted at once and the remainder `S - M` is queued. -/
theorem drain_setup {S M : ℤ} (hM : 1 ≤ M) (hMS : M < S) :
    chainedStep (drainState1 M) (.add S)
      = (drainState2 S M, some { quantity := M, after := [] }, none) := by
  rw [add_first_emit (by omega)]
  have harith : applyMaxQuantity (some M) (0 + S) = M := by
    show min (0 + S) M = M
    omega
  rw [harith, zero_add]
  have hcond : ({ surplus := S - M, latestRem := S, freshRem := false, latestAfter := [], freshAfter := false, minQ := none, maxQ := some M, started := true, dead := none } : ChainedState).started = true ∧ quantityIsPositive ({ surplus := S - M, latestRem := S, freshRem := false, latestAfter := [], freshAfter := false, minQ := none, maxQ := some M, started := true, dead := none } : ChainedState).surplus = true ∧ applyMinQuantity ({ surplus := S - M, latestRem := S, freshRem := false, latestAfter := [], freshAfter := false, minQ := none, maxQ := some M, started := true, dead := none } : ChainedState).minQ ({ surplus := S - M, latestRem := S, freshRem := false, latestAfter := [], freshAfter := false, minQ := none, maxQ := some M, started := true, dead := none } : ChainedState).surplus = true := by
    refine ⟨rfl, ?_, rfl⟩
    show quantityIsPositive (S - M) = true
    simp only [quantityIsPositive, decide_eq_true_eq]
    omega
  rw [pushRemaining_pos hcond]
  rfl

/-- One fetch completion in the drain scenario consumes `min surplus M` from
the surplus. -/
theorem drain_step {M : ℤ} {st : ChainedState} (hM : 1 ≤ M)
    (hInv : DrainInv M st) :
    DrainInv M (stepState st (.content [[1]])) ∧
    (stepState st (.content [[1]])).surplus = st.surplus - min st.surplus M ∧
    outQty (chainedStep st (.content [[1]])).2.1 = min st.surplus M := by
  obtain ⟨hd, hst, hm, hM0, hs, hfr, hlat⟩ := hInv
  have hk : getAfter [[1]] = some [1] := rfl
  unfold stepState
  rw [chainedStep_content_some hd hk]
  by_cases hp : 0 < st.surplus
  · have hfr1 : st.freshRem = true := by
      rw [hfr]
      simp [hp]
    have hc : ({ st with latestAfter := [1], freshAfter := true } : ChainedState).freshRem = true ∧ ({ st with latestAfter := [1], freshAfter := true } : ChainedState).freshAfter = true := ⟨hfr1, rfl⟩
    rw [tryEmit_pos hc]
    have hlr := hlat hfr1
    have hqe : applyMaxQuantity ({ st with latestAfter := [1], freshAfter := true } : ChainedState).maxQ ({ st with latestAfter := [1], freshAfter := true } : ChainedState).latestRem = min st.surplus M := by
      show applyMaxQuantity st.maxQ st.latestRem = _
      rw [hM0, hlr]
      rfl
    refine ⟨?_, ?_, ?_⟩
    · apply pushRemaining_drain
      · show st.dead = none
        exact hd
      · show st.started = true
        exact hst
      · show st.minQ = none
        exact hm
      · show st.maxQ = some M
        exact hM0
      · rfl
      · show 0 ≤ st.surplus - applyMaxQuantity ({ st with latestAfter := [1], freshAfter := true } : ChainedState).maxQ ({ st with latestAfter := [1], freshAfter := true } : ChainedState).latestRem
        rw [hqe]
        omega
    · show (pushRemaining _).surplus = _
      rw [pushRemaining_surplus]
      show st.surplus - applyMaxQuantity ({ st with latestAfter := [1], freshAfter := true } : ChainedState).maxQ ({ st with latestAfter := [1], freshAfter := true } : ChainedState).latestRem = _
      rw [hqe]
    · show outQty (some _) = _
      simp only [outQty]
      exact hqe
  · have hs0 : st.surplus = 0 := by omega
    have hfr0 : st.freshRem = false := by
      rw [hfr]
      simp [hp]
    have hc : ¬(({ st with latestAfter := [1], freshAfter := true } : ChainedState).freshRem = true ∧ ({ st with latestAfter := [1], freshAfter := true } : ChainedState).freshAfter = true) := by
      intro hcon
      have h2 : st.freshRem = true := hcon.1
      rw [hfr0] at h2
      exact absurd h2 (by simp)
    rw [tryEmit_eq_none hc]
    refine ⟨⟨hd, hst, hm, hM0, hs, ?_, ?_⟩, ?_, ?_⟩
    · show st.freshRem = decide (0 < st.surplus)
      exact hfr
    · intro hcon
      have h3 : st.freshRem = true := hcon
      rw [hfr0] at h3
      exact absurd h3 (by simp)
    · show st.surplus = st.surplus - min st.surplus M
      omega
    · show outQty none = min st.surplus M
      simp only [outQty]
      omega

/-- Draining: once enough fetch completions arrive, the queued surplus is
fully emitted, `min surplus M` per completion. -/
theorem drain_fold {M : ℤ} (hM : 1 ≤ M) :
    ∀ (n : ℕ) (st : ChainedState), DrainInv M st → st.surplus ≤ (n : ℤ) * M →
    (statesFold st (List.replicate n (.content [[1]]))).surplus = 0 ∧
    sumQ (chainedOutputs st (List.replicate n (.content [[1]])))
      = st.surplus := by
  intro n
  induction n with
  | zero =>
      intro st hInv hle
      obtain ⟨hd, hst, hm, hM0, hs, hfr, hlat⟩ := hInv
      have h0 : st.surplus = 0 := by
        simp only [Nat.cast_zero, zero_mul] at hle
        omega
      exact ⟨h0, by rw [h0]; rfl⟩
  | succ n ih =>
      intro st hInv hle
      rw [List.replicate_succ]
      obtain ⟨hInv2, hsurp, hqty⟩ := drain_step hM hInv
      have hle2 : (stepState st (.content [[1]])).surplus ≤ (n : ℤ) * M := by
        rw [hsurp]
        have hcast : ((n + 1 : ℕ) : ℤ) * M = (n : ℤ) * M + M := by
          push_cast
          ring
        rw [hcast] at hle
        have hnm : 0 ≤ (n : ℤ) * M :=
          mul_nonneg (Int.natCast_nonneg n) (by omega)
        obtain ⟨hd, hst, hm, hM0, hs, hfr, hlat⟩ := hInv
        omega
      obtain ⟨hfin, hsum⟩ := ih (stepState st (.content [[1]])) hInv2 hle2
      refine ⟨hfin, ?_⟩
      have hout : chainedOutputs st (.content [[1]] :: List.replicate n (.content [[1]]))
          = (chainedStep st (.content [[1]])).2.1.toList ++
            chainedOutputs (stepState st (.content [[1]]))
              (List.replicate n (.content [[1]])) := rfl
      rw [hout, sumQ_append, sumQ_toList, hqty, hsum, hsurp]
      obtain ⟨hd, hst, hm, hM0, hs, hfr, hlat⟩ := hInv
      omega

/-! ### Setup lemmas for fixed-settings traces -/

theorem fixedInv_after_settings {s₀ : Settings}
    (hv : spotInvalidSettings s₀ = none) :
    FixedInv (jsToOpt s₀.minQuantity) (jsToOpt s₀.maxQuantity)
      (stepState initialChainedState (.settings s₀)) := by
  unfold stepState
  rw [chainedStep_settings_valid rfl hv]
  refine ⟨rfl, rfl, rfl, rfl, le_refl 0, fun h => ?_⟩
  exact absurd h (by simp [initialChainedState])

theorem fixedInv_take {s₀ : Settings} {tr : List ChainedEvent}
    (hv : spotInvalidSettings s₀ = none)
    (hns : ∀ e ∈ tr, notSettings e = true) (i : ℕ) :
    FixedInv (jsToOpt s₀.minQuantity) (jsToOpt s₀.maxQuantity)
      (stateAfter ((ChainedEvent.settings s₀ :: tr).take (i + 1))) := by
  rw [List.take_succ_cons]
  show FixedInv _ _
    (statesFold (stepState initialChainedState (.settings s₀)) (tr.take i))
  exact fixedInv_fold (fixedInv_after_settings hv)
    (fun e he => hns e (List.take_subset i tr he))

theorem fold_dead_none {st : ChainedState} {l : List ChainedEvent}
    (hd : st.dead = none) (hns : ∀ e ∈ l, notSettings e = true) :
    (statesFold st l).dead = none := by
  induction l generalizing st with
  | nil => exact hd
  | cons e l ih =>
      have hd2 : (stepState st e).dead = none := by
        have h3 := (@step_preserves st e
          (hns e (List.mem_cons_self e l))).2.2.2
        unfold stepState
        rw [h3, hd]
      exact ih hd2 (fun e2 he2 => hns e2 (List.mem_cons_of_mem e he2))

/-! ### Backpressure helpers -/

/-- After an instruction is emitted at event `i`, no later event up to `j`
emits unless a qualifying content batch arrives strictly after `i`: the
emission consumed the cursor slot, and only a qualifying content batch can
refresh it. -/
theorem no_emit_without_qual {tr : List ChainedEvent} {i j : ℕ}
    {outi : ChainedLoadInstruction} (hij : i < j)
    (hei : emitAt tr i = some outi)
    (hq : ∀ k e, i < k → k ≤ j → tr.get? k = some e → qualKeyOf e = none) :
    emitAt tr j = none := by
  unfold emitAt at hei
  cases hgi : tr.get? i with
  | none => rw [hgi] at hei; exact absurd hei (by simp)
  | some ei =>
      rw [hgi] at hei
      have hfa : (stateAfter (tr.take (i + 1))).freshAfter = false := by
        rw [stateAfter_take_succ hgi]
        exact (emit_anatomy hei).2.2.1
      have hseg : ∀ e ∈ (tr.take j).drop (i + 1), qualKeyOf e = none := by
        intro e he
        obtain ⟨n, hn⟩ := List.mem_iff_get?.mp he
        rw [List.get?_drop] at hn
        have hlen : i + 1 + n < (tr.take j).length :=
          (List.get?_eq_some.mp hn).1
        have hlt : i + 1 + n < j := by
          have h4 : (tr.take j).length ≤ j := by
            rw [List.length_take]
            exact min_le_left j tr.length
          omega
        rw [List.get?_take hlt] at hn
        exact hq (i + 1 + n) e (by omega) (by omega) hn
      have hdecomp : tr.take j = tr.take (i + 1) ++ (tr.take j).drop (i + 1) := by
        conv_lhs => rw [← List.take_append_drop (i + 1) (tr.take j)]
        rw [List.take_take, min_eq_left (by omega : i + 1 ≤ j)]
      have hfin : (stateAfter (tr.take j)).freshAfter = false := by
        unfold stateAfter
        rw [hdecomp, statesFold_append]
        exact fold_freshAfter_false hfa hseg
      unfold emitAt
      cases hgj : tr.get? j with
      | none => rfl
      | some ej =>
          exact (step_freshAfter_false hfin
            (hq j ej hij (le_refl j) hgj)).1

/-- A qualifying cursor key is never the empty tuple. -/
theorem qualKey_ne_nil {e : ChainedEvent} {k : List ℤ}
    (h : qualKeyOf e = some k) : k ≠ [] := by
  cases e with
  | add q => exact absurd h (by simp [qualKeyOf])
  | settings s => exact absurd h (by simp [qualKeyOf])
  | content b =>
      have hb : getAfter b = some k := h
      unfold getAfter at hb
      cases hl : b.getLast? with
      | none => rw [hl] at hb; exact absurd hb (by simp)
      | some k2 =>
          rw [hl] at hb
          have hb2 : (if k2 = [] then none else some k2 : Option (List ℤ))
              = some k := hb
          by_cases hk2 : k2 = []
          · rw [if_pos hk2] at hb2
            exact absurd hb2 (by simp)
          · rw [if_neg hk2] at hb2
            have h5 := Option.some.inj hb2
            rw [← h5]
            exact hk2

theorem mem_filterMap_qual_ne_nil {l : List ChainedEvent} {x : List ℤ}
    (h : x ∈ l.filterMap qualKeyOf) : x ≠ [] := by
  obtain ⟨e, he, hq⟩ := List.mem_filterMap.mp h
  exact qualKey_ne_nil hq

/-- The cursor fold lands either on its start value or on one of the
qualifying keys of the folded segment. -/
theorem foldCursor_mem (l : List ChainedEvent) :
    ∀ c : List ℤ,
      l.foldl (fun c e => (qualKeyOf e).getD c) c ∈ c :: l.filterMap qualKeyOf := by
  induction l with
  | nil => intro c; simp
  | cons e l ih =>
      intro c
      rw [List.foldl_cons]
      cases hq : qualKeyOf e with
      | none =>
          rw [Option.getD_none]
          simp only [List.filterMap_cons, hq]
          exact ih c
      | some k =>
          rw [Option.getD_some]
          simp only [List.filterMap_cons, hq]
          rcases List.mem_cons.mp (ih k) with h3 | h3
          · rw [h3]
            exact List.mem_cons_of_mem c (List.mem_cons_self k _)
          · exact List.mem_cons_of_mem c (List.mem_cons_of_mem k h3)

/-- When the folded segment contains a qualifying event, the cursor fold
lands on one of the segment's keys. -/
theorem foldCursor_mem_of_exists (l : List ChainedEvent) :
    ∀ c : List ℤ, (∃ e ∈ l, (qualKeyOf e).isSome = true) →
      l.foldl (fun c e => (qualKeyOf e).getD c) c ∈ l.filterMap qualKeyOf := by
  induction l with
  | nil =>
      intro c h
      obtain ⟨e, he, _⟩ := h
      exact absurd he (by simp)
  | cons e l ih =>
      intro c h
      rw [List.foldl_cons]
      cases hq : qualKeyOf e with
      | some k =>
          rw [Option.getD_some]
          simp only [List.filterMap_cons, hq]
          exact foldCursor_mem l k
      | none =>
          rw [Option.getD_none]
          simp only [List.filterMap_cons, hq]
          apply ih
          obtain ⟨e2, he2, hs2⟩ := h
          rcases List.mem_cons.mp he2 with h3 | h3
          · rw [h3, hq] at hs2
            exact absurd hs2 (by simp)
          · exact ⟨e2, h3, hs2⟩

/-! ### Ceiling division -/

theorem ceilDiv_eq_ceil {a b : ℤ} (hb : 0 < b) :
    Raw.ceilDiv a b = ⌈(a : ℚ) / (b : ℚ)⌉ := by
  have hbne : b ≠ 0 := by omega
  have hbq : (0 : ℚ) < (b : ℚ) := by exact_mod_cast hb
  have h1 : (a - 1) / b * b ≤ a - 1 := Int.ediv_mul_le (a - 1) hbne
  have h2 : a - 1 < ((a - 1) / b + 1) * b := Int.lt_ediv_add_one_mul_self (a - 1) hb
  symm
  show ⌈(a : ℚ) / (b : ℚ)⌉ = (a - 1) / b + 1
  rw [Int.ceil_eq_iff]
  constructor
  · push_cast
    rw [add_sub_cancel_right, lt_div_iff hbq]
    have h4 : (a - 1) / b * b < a := by linarith
    exact_mod_cast h4
  · push_cast
    rw [div_le_iff hbq]
    have h3 : a ≤ ((a - 1) / b + 1) * b := by linarith
    exact_mod_cast h3

theorem one_le_ceilDiv {a b : ℤ} (ha : 0 < a) (hb : 0 < b) :
    1 ≤ Raw.ceilDiv a b := by
  show 1 ≤ (a - 1) / b + 1
  have h1 : 0 ≤ (a - 1) / b := Int.ediv_nonneg (by omega) (by omega)
  omega

/-! ### The claims -/

/-- C1, counterexample: with six raw deltas of 15 and the two fetch
completions at positions 6 and 8 of the event sequence (floor 20,
ceiling 50, contentHeight 1), the engine emits the quantities 30 and 45 — not
30, 50, 25 — and the residual surplus at the end of the run is 15, not 0.
(Emitted quantities can total at most the six deltas' sum 90, so the claimed
total 105 with residual 0 is impossible for six deltas.) -/
theorem C1_six_deltas_counterexample :
    getChainedLoadInstruction sixDeltaTrace
      = ([{ quantity := 30, after := [] }, { quantity := 45, after := [1] }],
         none) ∧
    (getChainedLoadInstruction sixDeltaTrace).1.map
        ChainedLoadInstruction.quantity = [30, 45] ∧
    ([30, 45] : List ℤ) ≠ [30, 50, 25] ∧
    (stateAfter sixDeltaTrace).surplus = 15 := by decide

/-- C1, amended: the worked example of spec section 4.3 has seven raw deltas
of 15 — six before the two fetch completions and a seventh after them — and
then the emitted quantities are 30, 50 and 25 in order, with a final residual
surplus of 0. -/
theorem C1_worked_example :
    getChainedLoadInstruction workedExampleTrace
      = ([{ quantity := 30, after := [] }, { quantity := 50, after := [1] },
          { quantity := 25, after := [2] }], none) ∧
    (stateAfter workedExampleTrace).surplus = 0 := by decide

/-- C2, counterexample: with no floor and no ceiling, after the instruction
`(5, [])` is emitted, a further raw quantity 3 makes the candidate pair
`(3, [])`, which differs from the previously emitted pair `(5, [])` — yet
nothing is emitted at that event: the cursor slot is consumed on emission and
only a content batch can refresh it. -/
theorem C2_changed_surplus_counterexample :
    (getChainedLoadInstruction twoAddsTrace).1
      = [{ quantity := 5, after := [] }] ∧
    (stateAfter twoAddsTrace).latestRem = 3 ∧
    (stateAfter twoAddsTrace).latestAfter = [] ∧
    emitAt twoAddsTrace 2 = none ∧
    ((3 : ℤ), ([] : List ℤ)) ≠ ((5 : ℤ), ([] : List ℤ)) := by decide

/-- C2, amended: candidate emission is not a compare-with-previous-pair
dedup; an emission consumes both the surplus value and the cursor value.
After an instruction is emitted at event `i`, no event up to `j` emits —
however the candidate surplus changes — unless a qualifying (non-empty, with
non-empty last sort key) content batch arrives strictly after `i`. -/
theorem C2_consume_on_emission :
    ∀ (tr : List ChainedEvent) (i j : ℕ) (outi : ChainedLoadInstruction),
      i < j → emitAt tr i = some outi →
      (∀ k e, i < k → k ≤ j → tr.get? k = some e → qualKeyOf e = none) →
      emitAt tr j = none :=
  fun _ _ _ _ hij hei hq => no_emit_without_qual hij hei hq

/-- Witness for the amended C2 at a concrete input: in `twoAddsTrace` the
event after the emission at position 1 is a raw quantity, so position 2 emits
nothing. -/
theorem C2_consume_on_emission_witness : emitAt twoAddsTrace 2 = none := by
  apply C2_consume_on_emission twoAddsTrace 1 2 { quantity := 5, after := [] }
  · omega
  · decide
  · intro k e h1 h2 h3
    have hk : k = 2 := by omega
    subst hk
    have he : e = ChainedEvent.add 3 := by
      have h4 : twoAddsTrace.get? 2 = some (ChainedEvent.add 3) := by decide
      rw [h4] at h3
      exact (Option.some.inj h3).symm
    rw [he]
    rfl

/-- C3, counterexample: when a batch with the same last sort key `[1]`
arrives twice, the engine emits the same instruction `(5, [1])` twice in a
row — two consecutive instructions with equal cursor and equal bounded
quantity. -/
theorem C3_repeated_key_counterexample :
    (getChainedLoadInstruction repeatedKeyTrace).1
      = [{ quantity := 5, after := [] }, { quantity := 5, after := [1] },
         { quantity := 5, after := [1] }] ∧
    (getChainedLoadInstruction repeatedKeyTrace).1.get? 1
      = some { quantity := 5, after := [1] } ∧
    (getChainedLoadInstruction repeatedKeyTrace).1.get? 2
      = some { quantity := 5, after := [1] } := by decide

/-- C3, amended: backpressure holds in the stronger form that a new
instruction requires a fresh content batch, and the claimed no-repeat
property holds whenever the qualifying batches carry pairwise-distinct last
sort keys: then any two instructions of the run — consecutive ones in
particular — carry distinct `after` cursors, so no two consecutive
instructions have both an unchanged cursor and an unchanged bounded
quantity. -/
theorem C3_distinct_cursors :
    ∀ tr : List ChainedEvent, (tr.filterMap qualKeyOf).Nodup →
      ∀ (i j : ℕ) (outi outj : ChainedLoadInstruction), i < j →
        emitAt tr i = some outi → emitAt tr j = some outj →
        outi.after ≠ outj.after := by
  intro tr hnd i j outi outj hij hei hej
  have hai : outi.after = specCursor (tr.take (i + 1)) := emitAt_after_eq hei
  have haj : outj.after = specCursor (tr.take (j + 1)) := emitAt_after_eq hej
  have hdecomp : tr.take (j + 1)
      = tr.take (i + 1) ++ (tr.take (j + 1)).drop (i + 1) := by
    conv_lhs => rw [← List.take_append_drop (i + 1) (tr.take (j + 1))]
    rw [List.take_take, min_eq_left (by omega : i + 1 ≤ j + 1)]
  obtain ⟨seg, hs⟩ : ∃ seg, (tr.take (j + 1)).drop (i + 1) = seg := ⟨_, rfl⟩
  rw [hs] at hdecomp
  have hex : ∃ e ∈ seg, (qualKeyOf e).isSome = true := by
    rw [← hs]
    by_contra hcon
    push_neg at hcon
    have hq : ∀ k e, i < k → k ≤ j → tr.get? k = some e →
        qualKeyOf e = none := by
      intro k e hik hkj hk
      have hmem : e ∈ (tr.take (j + 1)).drop (i + 1) := by
        have hidx : ((tr.take (j + 1)).drop (i + 1)).get? (k - (i + 1))
            = some e := by
          rw [List.get?_drop]
          have h5 : i + 1 + (k - (i + 1)) = k := by omega
          rw [h5, List.get?_take (by omega : k < j + 1)]
          exact hk
        exact List.get?_mem hidx
      have h6 := hcon e hmem
      cases hqe : qualKeyOf e with
      | none => rfl
      | some k2 => exact absurd (by rw [hqe]; rfl) h6
    have h7 := no_emit_without_qual hij hei hq
    rw [h7] at hej
    exact Option.noConfusion hej
  have hj_mem : outj.after ∈ seg.filterMap qualKeyOf := by
    rw [haj]
    unfold specCursor
    rw [hdecomp, List.foldl_append]
    exact foldCursor_mem_of_exists _ _ hex
  have hi_mem : outi.after
      ∈ ([] : List ℤ) :: (tr.take (i + 1)).filterMap qualKeyOf := by
    rw [hai]
    exact foldCursor_mem _ []
  have hnd2 : ((tr.take (j + 1)).filterMap qualKeyOf).Nodup :=
    List.Nodup.sublist (List.Sublist.filterMap qualKeyOf
      (List.take_sublist _ _)) hnd
  rw [hdecomp, List.filterMap_append] at hnd2
  have hdisj := (List.nodup_append.mp hnd2).2.2
  intro heq
  rcases List.mem_cons.mp hi_mem with h7 | h7
  · exact mem_filterMap_qual_ne_nil hj_mem (heq ▸ h7)
  · exact hdisj h7 (heq ▸ hj_mem)

/-- Witness for the amended C3 at a concrete input: in `distinctKeyTrace`
(batch keys `[1]` and `[2]`), the instructions emitted at positions 1 and 3
carry distinct cursors. -/
theorem C3_distinct_cursors_witness :
    ({ quantity := 5, after := [] } : ChainedLoadInstruction).after
      ≠ ({ quantity := 5, after := [1] } : ChainedLoadInstruction).after :=
  C3_distinct_cursors distinctKeyTrace (by decide) 1 3
    { quantity := 5, after := [] } { quantity := 5, after := [1] }
    (by omega) (by decide) (by decide)

/-- C4: ceiling behaviour of the chained engine, confirmed. First, for every
trace of a fixed valid settings value with ceiling `M` followed by
non-settings events: every emitted instruction carries quantity
`min(pendingSurplus, M)` — where the pending surplus is the surplus
accumulated up to and including the event — hence every chunk is at most `M`,
and the emitted quantity is subtracted from the surplus synchronously with
the emission.  Second, in the drain scenario (one accumulated surplus
`S > M`, then `n` fetch completions with `n * M + M ≥ S`): the emitted
quantities sum to `S` exactly, each chunk is at most `M`, the final residual
surplus is 0, and no error is raised; by construction of the trace every
chunk after the first is emitted at a cursor-advance event. -/
theorem C4_ceiling_conservation :
    (∀ (s₀ : Settings) (tr : List ChainedEvent) (M : ℤ) (i : ℕ)
        (out : ChainedLoadInstruction),
        spotInvalidSettings s₀ = none →
        jsToOpt s₀.maxQuantity = some M →
        (∀ e ∈ tr, notSettings e = true) →
        emitAt (ChainedEvent.settings s₀ :: tr) i = some out →
        out.quantity = min (pendingSurplus (ChainedEvent.settings s₀ :: tr) i) M ∧
        out.quantity ≤ M ∧
        (stateAfter ((ChainedEvent.settings s₀ :: tr).take (i + 1))).surplus
          = pendingSurplus (ChainedEvent.settings s₀ :: tr) i - out.quantity) ∧
    (∀ (S M : ℤ) (n : ℕ), 1 ≤ M → M < S → S ≤ ((n + 1 : ℕ) : ℤ) * M →
        sumQ (getChainedLoadInstruction (drainTrace S M n)).1 = S ∧
        (∀ out ∈ (getChainedLoadInstruction (drainTrace S M n)).1,
          out.quantity ≤ M) ∧
        (stateAfter (drainTrace S M n)).surplus = 0 ∧
        (getChainedLoadInstruction (drainTrace S M n)).2 = none) := by
  constructor
  · intro s₀ tr M i out hv hmax hns hemit
    unfold emitAt at hemit
    cases hg : (ChainedEvent.settings s₀ :: tr).get? i with
    | none => rw [hg] at hemit; exact absurd hemit (by simp)
    | some e =>
        rw [hg] at hemit
        cases i with
        | zero =>
            have he0 : e = ChainedEvent.settings s₀ := by
              have h8 : (ChainedEvent.settings s₀ :: tr).get? 0
                  = some (ChainedEvent.settings s₀) := rfl
              rw [h8] at hg
              exact (Option.some.inj hg).symm
            rw [he0] at hemit
            exact absurd hemit (by simp [chainedStep_settings_no_emit])
        | succ j =>
            have hInv := fixedInv_take hv hns j
            rw [hmax] at hInv
            have hmem : e ∈ tr := by
              have h8 : (ChainedEvent.settings s₀ :: tr).get? (j + 1)
                  = tr.get? j := rfl
              rw [h8] at hg
              exact List.get?_mem hg
            have he := hns e hmem
            have hq := emission_quantity hInv he hemit
            refine ⟨?_, ?_, ?_⟩
            · unfold pendingSurplus
              rw [hg]
              exact hq.1
            · rw [hq.1]
              exact applyMaxQuantity_le_cap M _
            · rw [stateAfter_take_succ hg]
              unfold pendingSurplus
              rw [hg]
              exact hq.2
  · intro S M n hM hMS hle
    have h2 := drain_setup hM hMS
    have hInv2 : DrainInv M (drainState2 S M) := by
      refine ⟨rfl, rfl, rfl, rfl, ?_, ?_, fun _ => rfl⟩
      · show (0 : ℤ) ≤ S - M
        omega
      · show (true : Bool) = decide (0 < S - M)
        have h3 : 0 < S - M := by omega
        simp [h3]
    have hcast : ((n + 1 : ℕ) : ℤ) * M = (n : ℤ) * M + M := by
      push_cast
      ring
    have hle2 : (drainState2 S M).surplus ≤ (n : ℤ) * M := by
      show S - M ≤ _
      rw [hcast] at hle
      omega
    obtain ⟨hfin, hsum⟩ := drain_fold hM n (drainState2 S M) hInv2 hle2
    have hst1 : stepState initialChainedState
        (.settings (mkSettings none (some M))) = drainState1 M :=
      drain_settings_step hM
    have ho1 : (chainedStep initialChainedState
        (.settings (mkSettings none (some M)))).2.1 = none := by
      rw [chainedStep_settings_valid rfl (mkSettings_valid hM)]
    have ho2 : (chainedStep (stepState initialChainedState
        (.settings (mkSettings none (some M)))) (.add S)).2.1
        = some { quantity := M, after := [] } := by
      rw [hst1, h2]
    have hstep2 : stepState (stepState initialChainedState
        (.settings (mkSettings none (some M)))) (.add S) = drainState2 S M := by
      rw [hst1]
      show (chainedStep (drainState1 M) (.add S)).1 = _
      rw [h2]
    have hout : (getChainedLoadInstruction (drainTrace S M n)).1
        = (chainedStep initialChainedState
            (.settings (mkSettings none (some M)))).2.1.toList ++
          ((chainedStep (stepState initialChainedState
              (.settings (mkSettings none (some M)))) (.add S)).2.1.toList ++
            chainedOutputs (stepState (stepState initialChainedState
              (.settings (mkSettings none (some M)))) (.add S))
              (List.replicate n (.content [[1]]))) := rfl
    have hout2 : (getChainedLoadInstruction (drainTrace S M n)).1
        = { quantity := M, after := [] } ::
          chainedOutputs (drainState2 S M)
            (List.replicate n (.content [[1]])) := by
      rw [hout, ho1, ho2, hstep2]
      rfl
    have hstfin : stateAfter (drainTrace S M n)
        = statesFold (drainState2 S M) (List.replicate n (.content [[1]])) := by
      show statesFold (stepState (stepState initialChainedState
          (.settings (mkSettings none (some M)))) (.add S))
          (List.replicate n (.content [[1]])) = _
      rw [hstep2]
    have hrep : ∀ e ∈ List.replicate n (ChainedEvent.content [[1]]),
        notSettings e = true := by
      intro e he
      rw [List.eq_of_mem_replicate he]
      rfl
    refine ⟨?_, ?_, ?_, ?_⟩
    · rw [hout2]
      have hs5 : sumQ (chainedOutputs (drainState2 S M)
          (List.replicate n (.content [[1]]))) = S - M := hsum
      have hs6 : sumQ ({ quantity := M, after := [] } ::
          chainedOutputs (drainState2 S M)
            (List.replicate n (.content [[1]])))
          = M + sumQ (chainedOutputs (drainState2 S M)
            (List.replicate n (.content [[1]]))) := by
        simp [sumQ]
      rw [hs6, hs5]
      omega
    · intro out hmem
      rw [hout2] at hmem
      rcases List.mem_cons.mp hmem with h7 | h7
      · rw [h7]
      · exact fold_cap_le rfl hrep out h7
    · rw [hstfin]
      exact hfin
    · show (stateAfter (drainTrace S M n)).dead = none
      rw [hstfin]
      exact fold_dead_none rfl hrep

/-- Witness for C4 at concrete inputs: the emission at position 1 of
`drainTrace 3 2 1` carries quantity `min 3 2 = 2` and leaves surplus 1, and
the drain run of `drainTrace 3 2 1` emits quantities summing to 3 with
residual 0 and no error. -/
theorem C4_ceiling_conservation_witness :
    (({ quantity := 2, after := [] } : ChainedLoadInstruction).quantity
        = min (pendingSurplus (drainTrace 3 2 1) 1) 2 ∧
      ({ quantity := 2, after := [] } : ChainedLoadInstruction).quantity ≤ 2 ∧
      (stateAfter ((drainTrace 3 2 1).take 2)).surplus
        = pendingSurplus (drainTrace 3 2 1) 1
          - ({ quantity := 2, after := [] } : ChainedLoadInstruction).quantity) ∧
    (sumQ (getChainedLoadInstruction (drainTrace 3 2 1)).1 = 3 ∧
      (∀ out ∈ (getChainedLoadInstruction (drainTrace 3 2 1)).1,
        out.quantity ≤ 2) ∧
      (stateAfter (drainTrace 3 2 1)).surplus = 0 ∧
      (getChainedLoadInstruction (drainTrace 3 2 1)).2 = none) := by
  constructor
  · exact C4_ceiling_conservation.1 (mkSettings none (some 2))
      [.add 3, .content [[1]]] 2 1 { quantity := 2, after := [] }
      (by decide) (by decide) (by decide) (by decide)
  · exact C4_ceiling_conservation.2 3 2 1 (by omega) (by omega) (by norm_num)


/-- C5: settings validation, confirmed.  First, the error the engine reports
for a settings value is exactly the first failing check of the fixed order
the specification states (contentHeight missing, contentHeight not numeric,
contentHeight non-positive, minQuantity not numeric, minQuantity negative,
maxQuantity not numeric, maxQuantity below one, minimum above maximum).
Second, a live run that receives an invalid settings value terminates with
that value's distinct error and emits no further instruction, whatever comes
afterwards.  Third, when contentHeight is invalid — in particular when
minQuantity is simultaneously invalid — the reported error is one of the
three content-height errors, never a quantity error. -/
theorem C5_validation_order :
    (∀ s : Settings, spotInvalidSettings s = firstFailing s) ∧
    (∀ (t₁ t₂ : List ChainedEvent) (s : Settings) (err : SettingsError),
        (stateAfter t₁).dead = none →
        spotInvalidSettings s = some err →
        getChainedLoadInstruction (t₁ ++ ChainedEvent.settings s :: t₂)
          = ((getChainedLoadInstruction t₁).1, some err)) ∧
    (∀ (s : Settings) (err : SettingsError),
        (s.contentHeight = JSVal.undefined ∨ s.contentHeight = JSVal.nan ∨
          ∃ c, s.contentHeight = JSVal.num c ∧ c ≤ 0) →
        spotInvalidSettings s = some err →
        err = SettingsError.missingContentHeight ∨
          err = SettingsError.invalidContentHeight ∨
          err = SettingsError.nonPositiveContentHeight) := by
  refine ⟨?_, ?_, ?_⟩
  · intro s
    rcases s with ⟨ch, buf, mn, mx⟩
    unfold spotInvalidSettings settingsAreValid firstFailing validationChecks
    cases ch <;> cases mn <;> cases mx <;>
      simp [isContentHeightValid, isMinQuantityValid, isMaxQuantityValid,
        areMinAndMaxCompatible, jsIsNumeric, List.findSome?,
        Bind.bind, Except.bind] <;>
      split_ifs <;> simp_all
  · intro t₁ t₂ s err h1 h2
    have hstep := chainedStep_settings_invalid h1 h2
    have h6 : stepState (stateAfter t₁) (ChainedEvent.settings s)
        = { stateAfter t₁ with dead := some err } := by
      simp only [stepState]
      rw [hstep]
    have h7 : chainedOutputs (stateAfter t₁) (ChainedEvent.settings s :: t₂)
        = [] := by
      show ((chainedStep (stateAfter t₁) (ChainedEvent.settings s)).2.1).toList
          ++ chainedOutputs (stepState (stateAfter t₁)
              (ChainedEvent.settings s)) t₂ = []
      rw [hstep, h6]
      show (none : Option ChainedLoadInstruction).toList
          ++ chainedOutputs { stateAfter t₁ with dead := some err } t₂ = []
      rw [chainedOutputs_dead
        (show ({ stateAfter t₁ with dead := some err } : ChainedState).dead
          = some err from rfl) t₂]
      rfl
    have h8 : statesFold initialChainedState t₁ = stateAfter t₁ := rfl
    have ho : chainedOutputs initialChainedState
        (t₁ ++ ChainedEvent.settings s :: t₂)
        = chainedOutputs initialChainedState t₁ := by
      rw [chainedOutputs_append, h8, h7, List.append_nil]
    have hd : (stateAfter (t₁ ++ ChainedEvent.settings s :: t₂)).dead
        = some err := by
      show (statesFold initialChainedState
          (t₁ ++ ChainedEvent.settings s :: t₂)).dead = some err
      rw [statesFold_append, h8]
      show (statesFold (stepState (stateAfter t₁)
          (ChainedEvent.settings s)) t₂).dead = some err
      rw [h6]
      rw [statesFold_dead
        (show ({ stateAfter t₁ with dead := some err } : ChainedState).dead
          = some err from rfl) t₂]
    show (chainedOutputs initialChainedState
        (t₁ ++ ChainedEvent.settings s :: t₂),
      (stateAfter (t₁ ++ ChainedEvent.settings s :: t₂)).dead)
      = ((getChainedLoadInstruction t₁).1, some err)
    rw [ho, hd]
    rfl
  · intro s err hch hspot
    rcases hch with h | h | ⟨c, hc, hle⟩
    · unfold spotInvalidSettings settingsAreValid at hspot
      rw [h] at hspot
      simp [isContentHeightValid, Bind.bind, Except.bind] at hspot
      exact Or.inl hspot.symm
    · unfold spotInvalidSettings settingsAreValid at hspot
      rw [h] at hspot
      simp [isContentHeightValid, Bind.bind, Except.bind] at hspot
      exact Or.inr (Or.inl hspot.symm)
    · unfold spotInvalidSettings settingsAreValid at hspot
      rw [hc] at hspot
      simp [isContentHeightValid, Bind.bind, Except.bind, if_pos hle] at hspot
      exact Or.inr (Or.inr hspot.symm)

/-- Witness for C5 at concrete inputs: for `cBadSettings` (contentHeight
undefined, minQuantity −1, both invalid at once) the engine reports the
first failing check's error, the run `[settings cBadSettings]` terminates
with `missingContentHeight` and no instruction, and the error is a
content-height error. -/
theorem C5_validation_order_witness :
    spotInvalidSettings cBadSettings = firstFailing cBadSettings ∧
    getChainedLoadInstruction ([] ++ ChainedEvent.settings cBadSettings :: [])
      = ((getChainedLoadInstruction []).1,
         some SettingsError.missingContentHeight) ∧
    (SettingsError.missingContentHeight
        = SettingsError.missingContentHeight ∨
      SettingsError.missingContentHeight
        = SettingsError.invalidContentHeight ∨
      SettingsError.missingContentHeight
        = SettingsError.nonPositiveContentHeight) :=
  ⟨C5_validation_order.1 cBadSettings,
   C5_validation_order.2.1 [] [] cBadSettings
     SettingsError.missingContentHeight (by decide) (by decide),
   C5_validation_order.2.2 cBadSettings SettingsError.missingContentHeight
     (Or.inl (by decide)) (by decide)⟩

/-- C6, counterexample: a non-empty content batch whose last item carries an
empty sort key does not update the cursor.  In `emptyKeyTrace` the batch
`[[]]` arrives after the batch `[[1]]`; the spec's cursor (updated on every
non-empty batch) would be `[]`, but the instruction emitted afterwards
carries `after = [1]`. -/
theorem C6_empty_key_counterexample :
    (getChainedLoadInstruction emptyKeyTrace).1
      = [{ quantity := 5, after := [1] }] ∧
    emitAt emptyKeyTrace 3 = some { quantity := 5, after := [1] } ∧
    claimCursor (emptyKeyTrace.take 4) = [] ∧
    ([1] : List ℤ) ≠ [] := by decide

/-- C6, amended: the cursor is updated on every qualifying content batch —
non-empty with a non-empty last sort key.  Every emitted instruction's
`after` equals the most recent qualifying batch's last sort key (or `[]`
initially) over the processed prefix, and a live run's stored cursor always
equals that value. -/
theorem C6_amended_cursor :
    (∀ (tr : List ChainedEvent) (i : ℕ) (out : ChainedLoadInstruction),
        emitAt tr i = some out → out.after = specCursor (tr.take (i + 1))) ∧
    (∀ tr : List ChainedEvent, (stateAfter tr).dead = none →
        (stateAfter tr).latestAfter = specCursor tr) :=
  ⟨fun _ _ _ h => emitAt_after_eq h, fun _ h => stateAfter_latestAfter h⟩

/-- Witness for the amended C6 at a concrete input: in `emptyKeyTrace` the
instruction emitted at position 3 carries the qualifying-batch cursor, and
the final state stores it. -/
theorem C6_amended_cursor_witness :
    ({ quantity := 5, after := [1] } : ChainedLoadInstruction).after
      = specCursor (emptyKeyTrace.take 4) ∧
    (stateAfter emptyKeyTrace).latestAfter = specCursor emptyKeyTrace :=
  ⟨C6_amended_cursor.1 emptyKeyTrace 3 { quantity := 5, after := [1] }
     (by decide),
   C6_amended_cursor.2 emptyKeyTrace (by decide)⟩

/-- C7, confirmed: with contentHeight 50 and buffer 1000 and no motion
events, the chained engine emits exactly one instruction
`{quantity := 20, after := []}` (the buffer-driven instruction of the inner
raw engine, arriving just after the settings value) and no error, and
nothing thereafter. -/
theorem C7_scenario_d :
    chainedWithBufferOnly scenarioDSettings
      = ([{ quantity := 20, after := [] }], none) := by decide

/-- C8, counterexample: a buffer value arriving with the very first settings
value DOES produce a shortfall signal: the buffer sequence is prepended with
the default `0` (`startWith(0)`) before `pairwise`, so the first settings
value is diffed against `0`.  With contentHeight 25 and buffer 50 the delta
stream emits `50` and the buffer path emits an instruction of quantity 2. -/
theorem C8_first_buffer_counterexample :
    Raw.getBufferDelta (Raw.makeValidSettings (some [singleBufferUpdate]))
      = [50] ∧
    ([50] : List ℤ) ≠ [] ∧
    Raw.bufferLoadInstructions (some [singleBufferUpdate])
      = [{ quantity := some 2 }] := by decide

/-- C8, amended: the very first settings value carrying positive
contentHeight and buffer produces exactly one shortfall signal, of the full
buffer height (diffed against the prepended default `0`), converted to the
instruction `ceil(buffer / contentHeight)`; a first value without a
(positive) contentHeight produces no signal, since the validity filter
drops it. -/
theorem C8_amended_first_buffer :
    ∀ ch b : ℤ, 0 < ch → 0 < b →
      Raw.getBufferDelta
          (Raw.makeValidSettings (some [firstUpdate (some ch) (some b)]))
        = [b] ∧
      Raw.bufferLoadInstructions (some [firstUpdate (some ch) (some b)])
        = [{ quantity := some (Raw.ceilDiv b ch) }] ∧
      Raw.getBufferDelta
          (Raw.makeValidSettings (some [firstUpdate none (some b)])) = [] := by
  intro ch b hch hb
  have h1 : Raw.makeValidSettings (some [firstUpdate (some ch) (some b)])
      = [Raw.DEFAULT_SETTINGS,
         { contentHeight := if 0 < ch then ch else 0,
           buffer := if 0 < b then b else 0, debounce := 0,
           throttle := 0 }] := rfl
  rw [if_pos hch, if_pos hb] at h1
  have h2 : Raw.getBufferDelta
      [Raw.DEFAULT_SETTINGS,
       { contentHeight := ch, buffer := b, debounce := 0, throttle := 0 }]
      = [b] := by
    unfold Raw.getBufferDelta
    simp [Raw.bufferSettingsAreValid, Raw.DEFAULT_SETTINGS, Raw.extractBuffer,
      Raw.pairwise, Raw.computeDelta, Raw.bufferIsGreater, hch, hb,
      List.filter]
    omega
  refine ⟨?_, ?_, ?_⟩
  · rw [h1]
    exact h2
  · unfold Raw.bufferLoadInstructions
    rw [h1]
    show ((Raw.getBufferDelta
        [Raw.DEFAULT_SETTINGS,
         { contentHeight := ch, buffer := b, debounce := 0,
           throttle := 0 }]).map (Raw.applySettingToValue ch))
      = [{ quantity := some (Raw.ceilDiv b ch) }]
    rw [h2]
    show [Raw.applySettingToValue ch b]
      = [{ quantity := some (Raw.ceilDiv b ch) }]
    unfold Raw.applySettingToValue
    rw [if_pos hch]
  · have h3 : Raw.makeValidSettings (some [firstUpdate none (some b)])
        = [Raw.DEFAULT_SETTINGS,
           { contentHeight := 0, buffer := if 0 < b then b else 0,
             debounce := 0, throttle := 0 }] := rfl
    rw [if_pos hb] at h3
    rw [h3]
    unfold Raw.getBufferDelta
    simp [Raw.bufferSettingsAreValid, Raw.DEFAULT_SETTINGS, Raw.pairwise]

/-- Witness for the amended C8 at concrete inputs: contentHeight 25 and
buffer 50 as the very first settings value yield the delta `[50]` and the
instruction of quantity `ceil(50 / 25)`, while a first value without
contentHeight yields no delta. -/
theorem C8_amended_first_buffer_witness :
    Raw.getBufferDelta
        (Raw.makeValidSettings (some [firstUpdate (some 25) (some 50)]))
      = [50] ∧
    Raw.bufferLoadInstructions (some [firstUpdate (some 25) (some 50)])
      = [{ quantity := some (Raw.ceilDiv 50 25) }] ∧
    Raw.getBufferDelta
        (Raw.makeValidSettings (some [firstUpdate none (some 50)])) = [] :=
  C8_amended_first_buffer 25 50 (by decide) (by decide)

/-- C9, confirmed: for a qualifying motion delta `d > 0`, a positive
contentHeight yields an instruction of quantity `ceil(d / contentHeight)`
(`ceilDiv` agrees with the rational ceiling) and every such quantity is at
least 1, while a non-positive contentHeight (the unset merged default `0`
included) yields an instruction with no quantity. -/
theorem C9_unit_conversion :
    ∀ d ch : ℤ, 0 < d →
      (0 < ch →
        Raw.applySettingToValue ch d
          = { quantity := some (Raw.ceilDiv d ch) } ∧
        Raw.ceilDiv d ch = ⌈(d : ℚ) / (ch : ℚ)⌉ ∧
        1 ≤ Raw.ceilDiv d ch) ∧
      (ch ≤ 0 → Raw.applySettingToValue ch d = { quantity := none }) := by
  intro d ch hd
  constructor
  · intro hch
    refine ⟨?_, ceilDiv_eq_ceil hch, one_le_ceilDiv hd hch⟩
    unfold Raw.applySettingToValue
    rw [if_pos hch]
  · intro hch
    unfold Raw.applySettingToValue
    rw [if_neg (by omega)]

/-- Witness for C9 at a concrete input: delta 110 at contentHeight 25 gives
quantity `ceil(110 / 25) = 5 ≥ 1`; contentHeight 25 is positive, so the
non-positive branch holds vacuously. -/
theorem C9_unit_conversion_witness :
    ((0 : ℤ) < 25 →
      Raw.applySettingToValue 25 110
        = { quantity := some (Raw.ceilDiv 110 25) } ∧
      Raw.ceilDiv 110 25 = ⌈(110 : ℚ) / (25 : ℚ)⌉ ∧
      1 ≤ Raw.ceilDiv 110 25) ∧
    ((25 : ℤ) ≤ 0 → Raw.applySettingToValue 25 110 = { quantity := none }) :=
  C9_unit_conversion 110 25 (by decide)

/-- C10, confirmed: the raw engine called with no scroll source, no resize
source and no settings source emits no instruction and no error; the missing
settings source leaves only the default settings value. -/
theorem C10_empty_sources :
    Raw.getRawLoadInstruction none none none = [] ∧
    Raw.makeValidSettings none = [Raw.DEFAULT_SETTINGS] := by decide

end CycleLazyLoad
